import Mathlib

/-!
Verification of the graph-construction and bulk-loading core of the
recommendation engine: identity assignment, edge aggregation, interchange
export (`database/build_bulk.py`) and the chunked retrying batch loader
(`database/driver.py`), shallowly embedded in Lean.
-/

/-- Raw identifiers are JSON scalars: the pipeline feeds integers, but the
loader accepts strings as well.  Python truthiness and `str()` are modelled
below. -/
inductive Ident where
  | int (n : Int)
  | str (s : String)
deriving DecidableEq, Repr

/-- Python truthiness of an identifier value: `0` and `""` are falsy. -/
def Ident.truthy : Ident → Bool
  | .int n => n ≠ 0
  | .str s => s ≠ ""

/-- Python `str()` of an identifier. -/
def Ident.toStr : Ident → String
  | .int n => toString n
  | .str s => s

/-- Ordering on identifiers.  On homogeneous inputs (all ints, or all
strings) it coincides with the Python builtin `sorted`; Python raises on mixed
inputs, which the model totalises by putting all ints before all strings. -/
def Ident.le : Ident → Ident → Prop
  | .int m, .int n => m ≤ n
  | .int _, .str _ => True
  | .str _, .int _ => False
  | .str s, .str t => s ≤ t

instance Ident.decLe : DecidableRel Ident.le := fun a b =>
  match a, b with
  | .int m, .int n => inferInstanceAs (Decidable (m ≤ n))
  | .int _, .str _ => .isTrue trivial
  | .str _, .int _ => .isFalse id
  | .str s, .str t => inferInstanceAs (Decidable (s ≤ t))

instance : LinearOrder Ident where
  le := Ident.le
  le_refl a := by
    cases a with
    | int n => exact Int.le_refl n
    | str s => exact @le_refl String _ s
  le_trans a b c hab hbc := by
    cases a <;> cases b <;> cases c <;>
      first
        | exact Int.le_trans hab hbc
        | exact @le_trans String _ _ _ _ hab hbc
        | trivial
        | exact hab.elim
        | exact hbc.elim
  le_antisymm a b hab hba := by
    cases a <;> cases b <;>
      first
        | exact congrArg Ident.int (Int.le_antisymm hab hba)
        | exact congrArg Ident.str (@le_antisymm String _ _ _ hab hba)
        | exact hab.elim
        | exact hba.elim
  le_total a b := by
    cases a <;> cases b <;>
      first
        | exact Int.le_total _ _
        | exact @le_total String _ _ _
        | exact Or.inl trivial
        | exact Or.inr trivial
  decidableLE := Ident.decLe

/-- A raw event record from `data/batch.json`.  `none` models an absent (or
JSON-null, for the two optional fields) value. -/
structure RawEvent where
  item_id : Option Ident
  next_item_id : Option Ident
  session_id : Option Ident
deriving DecidableEq, Repr

/-- The error surfaced when a record lacks its mandatory `item_id`
(a `KeyError` in the source, `MissingRequiredField` in the error taxonomy of the spec). -/
inductive BuildError where
  | MissingRequiredField
deriving DecidableEq, Repr

/-- Decidable equality of `Except` results, for evaluating the model on
concrete inputs. -/
instance {ε α : Type} [DecidableEq ε] [DecidableEq α] : DecidableEq (Except ε α) := fun a b =>
  match a, b with
  | .ok x, .ok y => if h : x = y then .isTrue (by rw [h]) else .isFalse (by simp [h])
  | .error x, .error y => if h : x = y then .isTrue (by rw [h]) else .isFalse (by simp [h])
  | .ok _, .error _ => .isFalse (by simp)
  | .error _, .ok _ => .isFalse (by simp)

/-- Models `r.get(field)` used as a truthiness guard: yields the value only
when the field is present and truthy. -/
def truthyOpt : Option Ident → Option Ident
  | some v => if v.truthy then some v else none
  | none => none

/-- The item identifiers contributed by one record:
`items.add(r["item_id"])` plus
`if r.get("next_item_id"): items.add(r["next_item_id"])`.
A record without `item_id` raises. -/
def recordItems (r : RawEvent) : Except BuildError (List Ident) :=
  match r.item_id with
  | none => .error .MissingRequiredField
  | some v => .ok (v :: (truthyOpt r.next_item_id).toList)

/-- The `items` collection of `build_bulk.py` (loop over all records).  The
Python `set` is recovered by `List.dedup` at sorting time; this collection
keeps multiplicity, which the set semantics then quotient away. -/
def items : List RawEvent → Except BuildError (List Ident)
  | [] => .ok []
  | r :: rs => do
    let s ← recordItems r
    let t ← items rs
    .ok (s ++ t)

/-- Python `items_list = sorted(items)`: the distinct identifiers in
ascending order. -/
def items_list (l : List Ident) : List Ident := List.insertionSort (· ≤ ·) l.dedup

/-- The `id_map` dict, assigning each identifier its rank in the sorted
list (built by `enumerate(items_list)` in the source). -/
def id_map (l : List Ident) : Ident → Nat := fun v => (items_list l).indexOf v

/-- The truthy `session_id` values in event order:
`{r["session_id"] for r in data if r.get("session_id")}` before
deduplication. -/
def session_ids (data : List RawEvent) : List Ident :=
  data.filterMap (fun r => truthyOpt r.session_id)

/-- Python `sessions = sorted(...)`: the distinct truthy session
identifiers in ascending order. -/
def sessions_list (data : List RawEvent) : List Ident :=
  List.insertionSort (· ≤ ·) (session_ids data).dedup

/-- The `session_map` dict, assigning each session identifier its rank. -/
def session_map (data : List RawEvent) : Ident → Nat :=
  fun v => (sessions_list data).indexOf v

/-- The transition contribution of one record, mirroring the body of the
`next_agg` loop: nothing when `next_item_id` is absent or falsy; otherwise
the `(item_id, next_item_id)` pair together with the truthy `session_id`
(if any).  Accessing `r["item_id"]` raises when the field is missing. -/
def transOf (r : RawEvent) : Except BuildError (Option (Ident × Ident × Option Ident)) :=
  match truthyOpt r.next_item_id with
  | none => .ok none
  | some w =>
    match r.item_id with
    | none => .error .MissingRequiredField
    | some v => .ok (some (v, w, truthyOpt r.session_id))

/-- All transition contributions, in event order. -/
def transitions : List RawEvent → Except BuildError (List (Ident × Ident × Option Ident))
  | [] => .ok []
  | r :: rs => do
    let o ← transOf r
    let t ← transitions rs
    .ok (match o with | some x => x :: t | none => t)

/-- The state of the `next_agg` defaultdict: its key list in insertion
order, the `weight` counter and the `sessions` string set of every key
(`0` and the empty set outside the key list). -/
structure NextAgg where
  keys : List (Nat × Nat)
  weight : Nat × Nat → Nat
  sessions : Nat × Nat → List String

/-- Python `set.add`: append only if new. -/
def addNew (s : List String) (x : String) : List String :=
  if x ∈ s then s else s ++ [x]

/-- One defaultdict update: `next_agg[k]["weight"] += 1` and, for a truthy
session, `next_agg[k]["sessions"].add(str(session_id))`.  `idm` is the
`id_map` lookup resolving raw identifiers to dense IDs. -/
def applyContrib (idm : Ident → Nat) (agg : NextAgg) (x : Ident × Ident × Option Ident) :
    NextAgg :=
  let k : Nat × Nat := (idm x.1, idm x.2.1)
  { keys := if k ∈ agg.keys then agg.keys else agg.keys ++ [k]
    weight := fun j => if j = k then agg.weight k + 1 else agg.weight j
    sessions := fun j =>
      if j = k then
        match x.2.2 with
        | some sid => addNew (agg.sessions k) sid.toStr
        | none => agg.sessions k
      else agg.sessions j }

/-- The empty defaultdict. -/
def emptyAgg : NextAgg := ⟨[], fun _ => 0, fun _ => []⟩

/-- The `next_agg` loop of `build_bulk.py`. -/
def next_agg (idm : Ident → Nat) (data : List RawEvent) : Except BuildError NextAgg :=
  (transitions data).map (fun l => l.foldl (applyContrib idm) emptyAgg)

/-- The containment contribution of one record, mirroring the body of the
`contains` loop: nothing unless `session_id` is present and truthy;
accessing `r["item_id"]` raises when the field is missing. -/
def containOf (r : RawEvent) : Except BuildError (Option (Ident × Ident)) :=
  match truthyOpt r.session_id with
  | none => .ok none
  | some sid =>
    match r.item_id with
    | none => .error .MissingRequiredField
    | some v => .ok (some (sid, v))

/-- All containment contributions, in event order. -/
def containList : List RawEvent → Except BuildError (List (Ident × Ident))
  | [] => .ok []
  | r :: rs => do
    let o ← containOf r
    let t ← containList rs
    .ok (match o with | some x => x :: t | none => t)

/-- The `contains` set of `build_bulk.py`, with both identifiers resolved
through the lookup maps. -/
def contains (idm smap : Ident → Nat) (data : List RawEvent) :
    Except BuildError (Finset (Nat × Nat)) :=
  (containList data).map (fun l => (l.map (fun p => (smap p.1, idm p.2))).toFinset)

/-- Everything `build_bulk.py` has in memory after aggregation. -/
structure BulkOutput where
  itemsL : List Ident
  sessionsL : List Ident
  agg : NextAgg
  cont : Finset (Nat × Nat)

/-- The aggregation phase of `build_bulk.py`, stages in source order:
unique items, transition aggregation, sessions, containment. -/
def build_bulk (data : List RawEvent) : Except BuildError BulkOutput := do
  let col ← items data
  let agg ← next_agg (id_map col) data
  let c ← contains (id_map col) (session_map data) data
  .ok ⟨items_list col, sessions_list data, agg, c⟩

/-- The `CHUNK_SIZE` constant of `execute_batch`. -/
def CHUNK_SIZE : Nat := 10000

/-- The `MAX_RETRIES` constant of `execute_batch`. -/
def MAX_RETRIES : Nat := 3

/-- Outcome of one write attempt against the store: success with the
summary counters (nodes, relationships, properties), a transient fault
(`ServiceUnavailable` / `SessionExpired`), or any other (permanent)
failure. -/
inductive WriteResult where
  | ok (nodes rels props : Nat)
  | transient
  | permanent
deriving DecidableEq, Repr

/-- The `overall` effect counters accumulated across chunks. -/
structure Counters where
  nodes : Nat
  rels : Nat
  props : Nat
deriving DecidableEq, Repr

/-- Accumulation of one summary into the running `overall` counters. -/
def Counters.add (a : Counters) (n r p : Nat) : Counters :=
  ⟨a.nodes + n, a.rels + r, a.props + p⟩

/-- The cause wrapped by a terminal load failure. -/
inductive Fault where
  | transientExhausted
  | permanentFault
deriving DecidableEq, Repr

/-- Terminal state of the per-chunk retry loop, carrying the cumulative
sleep time in seconds. -/
inductive ChunkOutcome where
  | committed (c : Counters) (wait : Nat)
  | failed (f : Fault) (wait : Nat)
deriving DecidableEq, Repr

/-- The `for attempt in range(MAX_RETRIES)` retry loop of `execute_batch`
for one chunk.  `op attempt` is the response of the store to the given attempt;
on a transient fault the loop sleeps `2 ** attempt` seconds and, if this
was the last allowed attempt, re-raises; on any other exception it aborts
at once.  `wait` accumulates the time slept so far. -/
def attemptChunk (op : Nat → WriteResult) (maxRetries : Nat) (attempt wait : Nat) :
    ChunkOutcome :=
  if attempt < maxRetries then
    match op attempt with
    | .ok n r p => .committed ⟨n, r, p⟩ wait
    | .transient =>
      if attempt + 1 = maxRetries then .failed .transientExhausted (wait + 2 ^ attempt)
      else attemptChunk op maxRetries (attempt + 1) (wait + 2 ^ attempt)
    | .permanent => .failed .permanentFault wait
  else .committed ⟨0, 0, 0⟩ wait
termination_by maxRetries - attempt
decreasing_by omega

/-- Result of a whole `execute_batch` call: either the accumulated effect
counters (the fake summary object), or a raised failure; both carry the
total time slept. -/
inductive LoadResult where
  | success (c : Counters) (wait : Nat)
  | LoadFailed (f : Fault) (wait : Nat)
deriving DecidableEq, Repr

/-- The outer chunk loop of `execute_batch`: chunks are attempted in list
order, counters accumulate on commit, and a failed chunk aborts the whole
load.  `op i a` is the response of the store to attempt `a` on chunk `i`. -/
def runChunks {α : Type} (op : Nat → Nat → WriteResult) (maxRetries : Nat) :
    Nat → List (List α) → Counters → Nat → LoadResult
  | _, [], acc, wait => .success acc wait
  | idx, _ :: rest, acc, wait =>
    match attemptChunk (op idx) maxRetries 0 wait with
    | .committed c w => runChunks op maxRetries (idx + 1) rest (acc.add c.nodes c.rels c.props) w
    | .failed f w => .LoadFailed f w

/-- Python slicing `batch[i:i + CHUNK_SIZE] for i in range(0, total,
CHUNK_SIZE)`: the fixed-size windows of a record list.  (Python would
reject a zero step, so a zero window yields no chunks.) -/
def chunksOf {α : Type} (W : Nat) : List α → List (List α)
  | [] => []
  | a :: rest =>
    match W with
    | 0 => []
    | w + 1 => ((a :: rest).take (w + 1)) :: chunksOf (w + 1) (rest.drop w)
termination_by l => l.length
decreasing_by simp [List.length_drop]; omega

/-- The `execute_batch` method of `driver.py`: slice the batch into
chunks and drive the retry loop over them. -/
def execute_batch {α : Type} (op : Nat → Nat → WriteResult) (batch : List α) : LoadResult :=
  runChunks op MAX_RETRIES 0 (chunksOf CHUNK_SIZE batch) ⟨0, 0, 0⟩ 0

/-- Python `";".join` at the character level. -/
def joinChars (sep : Char) : List (List Char) → List Char
  | [] => []
  | [x] => x
  | x :: y :: rest => x ++ sep :: joinChars sep (y :: rest)

/-- Python `";".join` over strings, the Neo4j array format used for the
column of sessions (no escaping). -/
def joinStrs (l : List String) : String := String.mk (joinChars ';' (l.map String.data))

/-- Splitting on a separator character, the inverse direction of
`joinChars`. -/
def splitChars (sep : Char) : List Char → List (List Char)
  | [] => [[]]
  | c :: cs =>
    match splitChars sep cs with
    | [] => [[]]
    | g :: gs => if c = sep then [] :: g :: gs else (c :: g) :: gs

/-- Modelled from the spec: reading back a `string[]` column (§6) — the
repository has no reader for its interchange files.  An empty field decodes
to the empty array, otherwise the field is split on `;`. -/
def splitStr (s : String) : List String :=
  if s = "" then [] else (splitChars ';' s.data).map String.mk

/-- The `items.csv` writer: constant header, then one row per `i` in
`range(len(items_list))`. -/
def items_csv (n : Nat) : List String :=
  ":ID(Item)\t:LABEL" :: (List.range n).map (fun i => s!"{i}\tItem")

/-- The `sessions.csv` writer, analogous to `items.csv`. -/
def sessions_csv (n : Nat) : List String :=
  ":ID(Session)\t:LABEL" :: (List.range n).map (fun i => s!"{i}\tSession")

/-- The data of one `next.csv` row: key pair, weight, and the `sessions`
evidence joined into a single string. -/
def next_rows (agg : NextAgg) : List ((Nat × Nat) × Nat × String) :=
  agg.keys.map (fun k => (k, agg.weight k, joinStrs (agg.sessions k)))

/-- Rendering of one `next.csv` row as the tab-separated f-string of the source. -/
def renderNextRow (row : (Nat × Nat) × Nat × String) : String :=
  let i1 := row.1.1
  let i2 := row.1.2
  let w := row.2.1
  let sess := row.2.2
  s!"{i1}\t{i2}\t{w}\t{sess}"

/-- The `next.csv` writer: header then one rendered row per key. -/
def next_csv (agg : NextAgg) : List String :=
  ":START_ID(Item)\t:END_ID(Item)\tweight:int\tsessions:string[]" ::
    (next_rows agg).map renderNextRow

/-- First-occurrence deduplication: a canonical enumeration of the Python
`contains` set. -/
def dedupKeepFirst {β : Type} [DecidableEq β] (l : List β) : List β :=
  l.foldl (fun acc x => if x ∈ acc then acc else acc ++ [x]) []

/-- The rows of `contains.csv`: the resolved containment pairs, one row per
distinct pair. -/
def contains_rows (idm smap : Ident → Nat) (data : List RawEvent) :
    Except BuildError (List (Nat × Nat)) :=
  (containList data).map (fun l => dedupKeepFirst (l.map (fun p => (smap p.1, idm p.2))))

/-- The `contains.csv` writer: header then one row per resolved pair. -/
def contains_csv (rows : List (Nat × Nat)) : List String :=
  ":START_ID(Session)\t:END_ID(Item)" ::
    rows.map (fun p =>
      let a := p.1
      let b := p.2
      s!"{a}\t{b}")

/-- An identity table as held in memory: identifier to dense ID, in
ID order. -/
def table (l : List Ident) : List (Ident × Nat) := l.enum.map (fun p => (p.2, p.1))

/-- The content of `lookup.json`: `json.dump` turns every dict key into a
JSON string, so identifier keys are stringified. -/
structure LookupFile where
  item_to_id : List (String × Nat)
  session_to_id : List (String × Nat)
deriving DecidableEq, Repr

/-- One dumped identity map: `{str(ident): id}` in insertion (= ID)
order. -/
def withIds (l : List Ident) : List (String × Nat) := l.enum.map (fun p => (p.2.toStr, p.1))

/-- The `lookup.json` writer. -/
def lookupFile (itemsL sessionsL : List Ident) : LookupFile :=
  ⟨withIds itemsL, withIds sessionsL⟩

/-- Modelled from the spec: re-parsing `lookup.json` (§6) — the repository
has no reader for its interchange files.  JSON object keys are strings, so
each key is read back as a string identifier. -/
def parseLookup (f : LookupFile) : List (Ident × Nat) × List (Ident × Nat) :=
  (f.item_to_id.map (fun p => (Ident.str p.1, p.2)),
   f.session_to_id.map (fun p => (Ident.str p.1, p.2)))

/-- Modelled from the spec: re-parsing the `next.csv` rows (§6) — the key
pair and weight are read back as written and the `sessions:string[]` column
is split on `;` into the evidence set. -/
def parseNextRows (rows : List ((Nat × Nat) × Nat × String)) :
    List ((Nat × Nat) × Nat × Finset String) :=
  rows.map (fun row => (row.1, row.2.1, (splitStr row.2.2).toFinset))

/-- Normalisation replacing a present-but-falsy optional field by an
absent one.  `truthyOpt` treats both identically, so aggregation cannot
distinguish them. -/
def normOpt (o : Option Ident) : Option Ident :=
  match o with
  | some v => if v.truthy then some v else none
  | none => none

/-- An event with every falsy optional field replaced by an absent one. -/
def normEvent (r : RawEvent) : RawEvent :=
  ⟨r.item_id, normOpt r.next_item_id, normOpt r.session_id⟩

theorem chunksOf_nil {α : Type} (W : Nat) : chunksOf W ([] : List α) = [] := by
  simp [chunksOf]

theorem chunksOf_eq_nil_iff {α : Type} (W : Nat) (l : List α) (hW : 0 < W) :
    chunksOf W l = [] ↔ l = [] := by
  induction W, l using chunksOf.induct with
  | case1 W => simp [chunksOf]
  | case2 a rest => omega
  | case3 a rest w ih => rw [chunksOf]; simp

theorem chunksOf_flatten {α : Type} (W : Nat) (l : List α) (hW : 0 < W) :
    (chunksOf W l).flatten = l := by
  induction W, l using chunksOf.induct with
  | case1 W => simp [chunksOf]
  | case2 a rest => omega
  | case3 a rest w ih =>
    rw [chunksOf]
    simp only [List.flatten_cons]
    rw [ih (by omega)]
    simpa using List.take_append_drop (w + 1) (a :: rest)

theorem chunksOf_length {α : Type} (W : Nat) (l : List α) (hW : 0 < W) :
    (chunksOf W l).length = (l.length + W - 1) / W := by
  induction W, l using chunksOf.induct with
  | case1 W => rw [chunksOf_nil]; simp [Nat.div_eq_of_lt (show W - 1 < W by omega)]
  | case2 a rest => omega
  | case3 a rest w ih =>
    rw [chunksOf]
    simp only [List.length_cons, List.length_drop, ih (by omega)]
    have hr : rest.length + 1 + (w + 1) - 1 = rest.length + (w + 1) := by omega
    rw [hr, Nat.add_div_right _ (by omega)]
    have hl : rest.length - w + (w + 1) - 1 = rest.length - w + w := by omega
    rw [hl]
    rcases le_or_lt w rest.length with h | h
    · have h1 : rest.length - w + w = rest.length := by omega
      rw [h1]
    · have h1 : rest.length - w + w < w + 1 := by omega
      have h2 : rest.length < w + 1 := by omega
      rw [Nat.div_eq_of_lt h1, Nat.div_eq_of_lt h2]

theorem chunksOf_dropLast {α : Type} (W : Nat) (l : List α) (hW : 0 < W) :
    ∀ c ∈ (chunksOf W l).dropLast, c.length = W := by
  induction W, l using chunksOf.induct with
  | case1 W => simp [chunksOf]
  | case2 a rest => omega
  | case3 a rest w ih =>
    rw [chunksOf]
    rcases eq_or_ne (rest.drop w) [] with h | h
    · rw [h, chunksOf_nil]
      simp
    · have h2 : chunksOf (w + 1) (rest.drop w) ≠ [] := by
        rw [ne_eq, chunksOf_eq_nil_iff _ _ (by omega)]
        exact h
      obtain ⟨c', cs, hc'⟩ := List.exists_cons_of_ne_nil h2
      rw [hc', List.dropLast_cons₂]
      intro c hc
      rcases List.mem_cons.mp hc with h3 | h3
      · subst h3
        have h4 : w + 1 ≤ (a :: rest).length := by
          have h5 := List.length_pos.mpr h
          simp only [List.length_drop] at h5
          simp only [List.length_cons]
          omega
        simp only [List.length_take, List.length_cons] at h4 ⊢
        omega
      · exact ih (by omega) c (hc' ▸ h3)

theorem chunksOf_getLast {α : Type} (W : Nat) (l : List α) (hW : 0 < W) (hl : l ≠ []) :
    ∃ c, (chunksOf W l).getLast? = some c ∧
      c.length = if l.length % W = 0 then W else l.length % W := by
  induction W, l using chunksOf.induct with
  | case1 W => exact absurd rfl hl
  | case2 a rest => omega
  | case3 a rest w ih =>
    simp only [Nat.succ_eq_add_one]
    rw [chunksOf]
    rcases eq_or_ne (rest.drop w) [] with h | h
    · rw [h, chunksOf_nil]
      refine ⟨(a :: rest).take (w + 1), rfl, ?_⟩
      have h5 : rest.length ≤ w := by
        have := congrArg List.length h
        simp only [List.length_drop, List.length_nil] at this
        omega
      have h6 : (a :: rest).length ≤ w + 1 := by simp; omega
      rw [List.take_of_length_le h6]
      rcases eq_or_lt_of_le h6 with h7 | h7
      · rw [h7, Nat.mod_self, if_pos rfl]
      · have h8 : (a :: rest).length % (w + 1) = (a :: rest).length := Nat.mod_eq_of_lt h7
        rw [h8, if_neg (by simp)]
    · have h2 : chunksOf (w + 1) (rest.drop w) ≠ [] := by
        rw [ne_eq, chunksOf_eq_nil_iff _ _ (by omega)]
        exact h
      obtain ⟨c', cs, hc'⟩ := List.exists_cons_of_ne_nil h2
      obtain ⟨c, hc, hlen⟩ := ih (by omega) h
      refine ⟨c, ?_, ?_⟩
      · rw [hc', List.getLast?_cons_cons, ← hc', hc]
      · have h9 : w + 1 ≤ (a :: rest).length := by
          have h5 := List.length_pos.mpr h
          simp only [List.length_drop] at h5
          simp only [List.length_cons]
          omega
        have h10 : (a :: rest).length % (w + 1) = ((a :: rest).length - (w + 1)) % (w + 1) :=
          Nat.mod_eq_sub_mod h9
        have h11 : (a :: rest).length - (w + 1) = (rest.drop w).length := by
          simp only [List.length_drop, List.length_cons]
          omega
      
        rw [h10, h11]
        exact hlen

/-- Claim C5: for every record list of length N and window size W, the
loader submits exactly ceil(N/W) chunks, each chunk a contiguous slice of
the list in order, every chunk of size W except the last which has size
N mod W (or W when N mod W = 0); with W = 2 the list [a,b,c,d,e] yields
chunks [a,b],[c,d],[e]. -/
theorem claim_C5 {α : Type} (l : List α) (W : Nat) (hW : 0 < W) :
    (chunksOf W l).length = (l.length + W - 1) / W
    ∧ (chunksOf W l).flatten = l
    ∧ (∀ c ∈ (chunksOf W l).dropLast, c.length = W)
    ∧ (l ≠ [] → ∃ c, (chunksOf W l).getLast? = some c ∧
        c.length = if l.length % W = 0 then W else l.length % W)
    ∧ chunksOf 2 [0, 1, 2, 3, 4] = [[0, 1], [2, 3], [4]] :=
  ⟨chunksOf_length W l hW, chunksOf_flatten W l hW, chunksOf_dropLast W l hW,
    fun hl => chunksOf_getLast W l hW hl, by simp [chunksOf]⟩

theorem claim_C5_witness :
    0 < 2
    ∧ ((chunksOf 2 [10, 20, 30, 40, 50]).length = (5 + 2 - 1) / 2
      ∧ (chunksOf 2 [10, 20, 30, 40, 50]).flatten = [10, 20, 30, 40, 50]
      ∧ (∀ c ∈ (chunksOf 2 [10, 20, 30, 40, 50]).dropLast, c.length = 2)
      ∧ ([10, 20, 30, 40, 50] ≠ [] → ∃ c,
          (chunksOf 2 [10, 20, 30, 40, 50]).getLast? = some c ∧
            c.length = if [10, 20, 30, 40, 50].length % 2 = 0 then 2 else
              [10, 20, 30, 40, 50].length % 2)
      ∧ chunksOf 2 [0, 1, 2, 3, 4] = [[0, 1], [2, 3], [4]]) :=
  ⟨by decide, claim_C5 [10, 20, 30, 40, 50] 2 (by decide)⟩

theorem sum_two_pow (k : Nat) : 2 ^ k - 1 = ∑ i ∈ Finset.range k, 2 ^ i := by
  induction k with
  | zero => simp
  | succ m ih =>
    rw [Finset.sum_range_succ, ← ih]
    have h1 : (2 : Nat) ^ (m + 1) = 2 ^ m + 2 ^ m := by ring
    have h2 : 0 < 2 ^ m := Nat.pos_pow_of_pos m (by omega)
    omega

/-- Claim C3: a chunk whose write fails with a transient fault exactly
k < MAX_RETRIES times and then succeeds commits with its reported counters
added to the running totals, after a total wait of at least
1 + 2 + ... + 2^(k-1) time units; a chunk failing MAX_RETRIES (= 3)
consecutive times aborts the whole load as LoadFailed with no later chunk
attempted (the outcome is the same for every remaining chunk list). -/
theorem claim_C3 {α : Type} (op : Nat → Nat → WriteResult) (j k n r p w0 : Nat)
    (acc : Counters) (c : List α) (rest : List (List α)) :
    ((∀ a, a < k → op j a = .transient) → op j k = .ok n r p → k < MAX_RETRIES →
      (attemptChunk (op j) MAX_RETRIES 0 w0 = .committed ⟨n, r, p⟩ (w0 + (2 ^ k - 1))
        ∧ 2 ^ k - 1 = ∑ i ∈ Finset.range k, 2 ^ i
        ∧ runChunks op MAX_RETRIES j (c :: rest) acc w0 =
            runChunks op MAX_RETRIES (j + 1) rest (acc.add n r p) (w0 + (2 ^ k - 1))))
    ∧ ((∀ a, a < MAX_RETRIES → op j a = .transient) →
        runChunks op MAX_RETRIES j (c :: rest) acc w0 =
          .LoadFailed .transientExhausted (w0 + (2 ^ MAX_RETRIES - 1))) := by
  constructor
  · intro h1 h2 h3
    have hattempt : attemptChunk (op j) MAX_RETRIES 0 w0 = .committed ⟨n, r, p⟩ (w0 + (2 ^ k - 1)) := by
      simp only [MAX_RETRIES] at h3 ⊢
      interval_cases k
      · rw [attemptChunk, if_pos (by omega), h2]
        simp
      · rw [attemptChunk, if_pos (by omega), h1 0 (by omega), if_neg (by omega),
          attemptChunk, if_pos (by omega), h2]
        simp
      · rw [attemptChunk, if_pos (by omega), h1 0 (by omega), if_neg (by omega),
          attemptChunk, if_pos (by omega), h1 1 (by omega), if_neg (by omega),
          attemptChunk, if_pos (by omega), h2]
        norm_num
    exact ⟨hattempt, sum_two_pow k, by rw [runChunks, hattempt]⟩
  · intro h1
    have hattempt : attemptChunk (op j) MAX_RETRIES 0 w0 =
        .failed .transientExhausted (w0 + (2 ^ MAX_RETRIES - 1)) := by
      simp only [MAX_RETRIES] at h1 ⊢
      rw [attemptChunk, if_pos (by omega), h1 0 (by omega), if_neg (by omega),
        attemptChunk, if_pos (by omega), h1 1 (by omega), if_neg (by omega),
        attemptChunk, if_pos (by omega), h1 2 (by omega), if_pos (by omega)]
      norm_num
    rw [runChunks, hattempt]

theorem claim_C3_witness :
    (attemptChunk (fun a => if a < 2 then WriteResult.transient else .ok 5 6 7)
        MAX_RETRIES 0 0 = .committed ⟨5, 6, 7⟩ (0 + (2 ^ 2 - 1))
      ∧ 2 ^ 2 - 1 = ∑ i ∈ Finset.range 2, 2 ^ i
      ∧ runChunks (fun _ a => if a < 2 then WriteResult.transient else .ok 5 6 7)
          MAX_RETRIES 0 [[0]] ⟨0, 0, 0⟩ 0 =
          runChunks (fun _ a => if a < 2 then WriteResult.transient else .ok 5 6 7)
            MAX_RETRIES 1 ([] : List (List Nat)) (Counters.add ⟨0, 0, 0⟩ 5 6 7)
            (0 + (2 ^ 2 - 1)))
    ∧ runChunks (fun _ _ => WriteResult.transient) MAX_RETRIES 0 [[0]] ⟨0, 0, 0⟩ 0 =
        .LoadFailed .transientExhausted (0 + (2 ^ MAX_RETRIES - 1)) := by
  constructor
  · exact (claim_C3 (fun _ a => if a < 2 then WriteResult.transient else .ok 5 6 7)
      0 2 5 6 7 0 ⟨0, 0, 0⟩ [0] []).1
      (by intro a ha; interval_cases a <;> rfl) rfl (by decide)
  · exact (claim_C3 (fun _ _ => WriteResult.transient) 0 0 0 0 0 0 ⟨0, 0, 0⟩ [0] []).2
      (fun a ha => rfl)

/-- Claim C4: a write attempt failing with a non-transient fault aborts the
load immediately on that attempt: no retry is consumed (no backoff is added
for it), no later chunk is attempted (the outcome is independent of the
remaining chunk list), the result is LoadFailed, and the counters
accumulated from earlier committed chunks are not returned as a success
value. -/
theorem claim_C4 {α : Type} (op : Nat → Nat → WriteResult) (j a w0 : Nat)
    (acc : Counters) (c : List α) (rest : List (List α))
    (h1 : ∀ b, b < a → op j b = .transient) (h2 : op j a = .permanent)
    (h3 : a < MAX_RETRIES) :
    runChunks op MAX_RETRIES j (c :: rest) acc w0 =
      .LoadFailed .permanentFault (w0 + (2 ^ a - 1))
    ∧ ∀ cnt w, runChunks op MAX_RETRIES j (c :: rest) acc w0 ≠ .success cnt w := by
  have hattempt : attemptChunk (op j) MAX_RETRIES 0 w0 =
      .failed .permanentFault (w0 + (2 ^ a - 1)) := by
    simp only [MAX_RETRIES] at h3 ⊢
    interval_cases a
    · rw [attemptChunk, if_pos (by omega), h2]
      simp
    · rw [attemptChunk, if_pos (by omega), h1 0 (by omega), if_neg (by omega),
        attemptChunk, if_pos (by omega), h2]
      simp
    · rw [attemptChunk, if_pos (by omega), h1 0 (by omega), if_neg (by omega),
        attemptChunk, if_pos (by omega), h1 1 (by omega), if_neg (by omega),
        attemptChunk, if_pos (by omega), h2]
      norm_num
  refine ⟨by rw [runChunks, hattempt], ?_⟩
  intro cnt w
  rw [runChunks, hattempt]
  simp

theorem claim_C4_witness :
    runChunks (fun _ b => if b < 1 then WriteResult.transient else .permanent)
        MAX_RETRIES 0 [[0]] ⟨9, 9, 9⟩ 0 =
      .LoadFailed .permanentFault (0 + (2 ^ 1 - 1))
    ∧ ∀ cnt w, runChunks (fun _ b => if b < 1 then WriteResult.transient else .permanent)
        MAX_RETRIES 0 [[0]] ⟨9, 9, 9⟩ 0 ≠ .success cnt w :=
  claim_C4 (fun _ b => if b < 1 then WriteResult.transient else .permanent)
    0 1 0 ⟨9, 9, 9⟩ [0] [] (by intro b hb; interval_cases b; rfl) rfl (by decide)

theorem truthyOpt_norm (o : Option Ident) : truthyOpt (normOpt o) = truthyOpt o := by
  cases o with
  | none => rfl
  | some v =>
    simp only [normOpt, truthyOpt]
    rcases h : v.truthy with _ | _ <;> simp [h, truthyOpt]

@[simp] theorem error_bind {ε α β : Type} (e : ε) (f : α → Except ε β) :
    (Except.error e >>= f : Except ε β) = .error e := rfl

@[simp] theorem ok_bind {ε α β : Type} (a : α) (f : α → Except ε β) :
    (Except.ok a >>= f : Except ε β) = f a := rfl

/-- Claim C9: an input containing a record that lacks the mandatory
`item_id` field makes identity assignment (and hence the whole build) fail
with `MissingRequiredField`. -/
theorem claim_C9 (data : List RawEvent) (h : ∃ r ∈ data, r.item_id = none) :
    items data = .error .MissingRequiredField
    ∧ build_bulk data = .error .MissingRequiredField := by
  have hitems : items data = .error .MissingRequiredField := by
    induction data with
    | nil => simp at h
    | cons r rs ih =>
      rcases h with ⟨e, he, hnone⟩
      rcases List.mem_cons.mp he with h1 | h1
      · subst h1
        simp [items, recordItems, hnone]
      · cases hr : r.item_id with
        | none => simp [items, recordItems, hr]
        | some v =>
          have hrs := ih ⟨e, h1, hnone⟩
          simp [items, recordItems, hr, hrs]
  exact ⟨hitems, by simp [build_bulk, hitems]⟩

theorem claim_C9_witness :
    (∃ r ∈ [(⟨none, none, none⟩ : RawEvent)], r.item_id = none)
    ∧ items [(⟨none, none, none⟩ : RawEvent)] = .error .MissingRequiredField
    ∧ build_bulk [(⟨none, none, none⟩ : RawEvent)] = .error .MissingRequiredField := by
  refine ⟨⟨⟨none, none, none⟩, by decide, rfl⟩, ?_, ?_⟩
  · exact (claim_C9 [⟨none, none, none⟩] ⟨⟨none, none, none⟩, by decide, rfl⟩).1
  · exact (claim_C9 [⟨none, none, none⟩] ⟨⟨none, none, none⟩, by decide, rfl⟩).2

theorem recordItems_norm (r : RawEvent) : recordItems (normEvent r) = recordItems r := by
  cases hr : r.item_id <;> simp [recordItems, normEvent, hr, truthyOpt_norm]

theorem transOf_norm (r : RawEvent) : transOf (normEvent r) = transOf r := by
  simp only [transOf, normEvent, truthyOpt_norm]

theorem containOf_norm (r : RawEvent) : containOf (normEvent r) = containOf r := by
  simp only [containOf, normEvent, truthyOpt_norm]

theorem items_norm (data : List RawEvent) : items (data.map normEvent) = items data := by
  induction data with
  | nil => rfl
  | cons r rs ih => simp [items, recordItems_norm, ih]

theorem transitions_norm (data : List RawEvent) :
    transitions (data.map normEvent) = transitions data := by
  induction data with
  | nil => rfl
  | cons r rs ih => simp [transitions, transOf_norm, ih]

theorem containList_norm (data : List RawEvent) :
    containList (data.map normEvent) = containList data := by
  induction data with
  | nil => rfl
  | cons r rs ih => simp [containList, containOf_norm, ih]

theorem session_ids_norm (data : List RawEvent) :
    session_ids (data.map normEvent) = session_ids data := by
  induction data with
  | nil => rfl
  | cons r rs ih =>
    simp only [session_ids, List.map_cons, List.filterMap_cons] at ih ⊢
    rw [show (normEvent r).session_id = normOpt r.session_id from rfl, truthyOpt_norm]
    cases truthyOpt r.session_id <;> simp only [ih]

theorem session_map_norm (data : List RawEvent) :
    session_map (data.map normEvent) = session_map data := by
  funext v
  simp only [session_map, sessions_list, session_ids_norm]

/-- Claim C10: an event whose `next_item_id` or `session_id` is present but
falsy (such as `0` or the empty string) is treated exactly as if the field
were absent, in every stage of the build: item table, transition
aggregation, session table, evidence and containment. -/
theorem claim_C10 (data : List RawEvent) :
    items (data.map normEvent) = items data
    ∧ transitions (data.map normEvent) = transitions data
    ∧ session_ids (data.map normEvent) = session_ids data
    ∧ containList (data.map normEvent) = containList data
    ∧ (∀ idm, next_agg idm (data.map normEvent) = next_agg idm data)
    ∧ (∀ idm smap, contains idm smap (data.map normEvent) = contains idm smap data)
    ∧ build_bulk (data.map normEvent) = build_bulk data
    ∧ normOpt (some (Ident.int 0)) = none
    ∧ normOpt (some (Ident.str "")) = none := by
  refine ⟨items_norm data, transitions_norm data, session_ids_norm data, containList_norm data,
    fun idm => ?_, fun idm smap => ?_, ?_, by decide, by decide⟩
  · simp only [next_agg, transitions_norm]
  · simp only [contains, containList_norm]
  · simp only [build_bulk, items_norm, session_map_norm]
    cases items data with
    | error e => rfl
    | ok col =>
      simp only [ok_bind, next_agg, transitions_norm, contains, containList_norm,
        sessions_list, session_ids_norm]

theorem truthyOpt_eq_some (o : Option Ident) (v : Ident) :
    truthyOpt o = some v ↔ o = some v ∧ v.truthy := by
  cases o with
  | none => simp [truthyOpt]
  | some w =>
    rcases hw : w.truthy with _ | _ <;> simp [truthyOpt, hw] <;> rintro rfl <;>
      simp [hw]

theorem items_ok_mem (data : List RawEvent) (v : Ident) (l : List Ident)
    (h : items data = .ok l) :
    v ∈ l ↔ (∃ r ∈ data, r.item_id = some v) ∨
      (∃ r ∈ data, r.next_item_id = some v ∧ v.truthy) := by
  induction data generalizing l with
  | nil =>
    simp only [items] at h
    cases h
    simp
  | cons r rs ih =>
    cases hr : r.item_id with
    | none => simp [items, recordItems, hr] at h
    | some v0 =>
      cases hrs : items rs with
      | error e => simp [items, recordItems, hr, hrs] at h
      | ok t =>
        simp only [items, recordItems, hr, hrs, ok_bind] at h
        cases h
        rw [List.exists_mem_cons_iff, List.exists_mem_cons_iff, List.cons_append,
          List.mem_cons, List.mem_append, ih t hrs, hr]
        simp only [Option.mem_toList, Option.mem_def, truthyOpt_eq_some,
          Option.some.injEq]
        constructor
        · rintro (h0 | ⟨h1, h2⟩ | h1 | h1)
          · exact Or.inl (Or.inl h0.symm)
          · exact Or.inr (Or.inl ⟨h1, h2⟩)
          · exact Or.inl (Or.inr h1)
          · exact Or.inr (Or.inr h1)
        · rintro ((h0 | h1) | ⟨h1, h2⟩ | h1)
          · exact Or.inl h0.symm
          · exact Or.inr (Or.inr (Or.inl h1))
          · exact Or.inr (Or.inl ⟨h1, h2⟩)
          · exact Or.inr (Or.inr (Or.inr h1))

theorem items_list_sorted (l : List Ident) : List.Sorted (· ≤ ·) (items_list l) :=
  List.sorted_insertionSort _ _

theorem items_list_nodup (l : List Ident) : (items_list l).Nodup :=
  ((List.perm_insertionSort _ _).nodup_iff).mpr l.nodup_dedup

theorem items_list_mem (l : List Ident) (v : Ident) : v ∈ items_list l ↔ v ∈ l := by
  simp only [items_list]
  rw [(List.perm_insertionSort _ _).mem_iff, List.mem_dedup]

theorem items_list_length (l : List Ident) : (items_list l).length = l.toFinset.card := by
  simp only [items_list]
  rw [(List.perm_insertionSort _ _).length_eq, List.card_toFinset]

theorem id_map_rank (l : List Ident) (i : Nat) (hi : i < (items_list l).length) :
    id_map l ((items_list l).get ⟨i, hi⟩) = i := by
  show (items_list l).indexOf ((items_list l).get ⟨i, hi⟩) = i
  rw [List.get_eq_getElem]
  exact List.indexOf_getElem (items_list_nodup l) i hi

theorem items_perm_aux (d1 d2 : List RawEvent) (hp : d1.Perm d2) :
    (items d1 = .error .MissingRequiredField ↔ items d2 = .error .MissingRequiredField)
    ∧ ∀ l1 l2, items d1 = .ok l1 → items d2 = .ok l2 → l1.Perm l2 := by
  induction hp with
  | nil =>
    refine ⟨Iff.rfl, fun l1 l2 h1 h2 => ?_⟩
    simp only [items] at h1 h2
    cases h1; cases h2
    rfl
  | @cons x t1 t2 hpt ih =>
    cases hx : recordItems x with
    | error e =>
      cases e
      simp only [items, hx, error_bind]
      exact ⟨trivial, fun l1 l2 h1 h2 => Except.noConfusion h1⟩
    | ok s =>
      simp only [items, hx, ok_bind]
      constructor
      · cases h1 : items t1 with
        | error e =>
          cases e
          have h2 := ih.1.mp h1
          simp [h1, h2]
        | ok u1 =>
          cases h2 : items t2 with
          | error e =>
            cases e
            have h3 := ih.1.mpr h2
            rw [h3] at h1
            exact Except.noConfusion h1
          | ok u2 => simp
      · intro l1 l2 h1 h2
        cases hu1 : items t1 with
        | error e => rw [hu1] at h1; exact Except.noConfusion h1
        | ok u1 =>
          cases hu2 : items t2 with
          | error e => rw [hu2] at h2; exact Except.noConfusion h2
          | ok u2 =>
            rw [hu1] at h1
            rw [hu2] at h2
            simp only [ok_bind] at h1 h2
            cases h1; cases h2
            exact (ih.2 u1 u2 hu1 hu2).append_left s
  | @swap x y t =>
    cases hx : recordItems x with
    | error e =>
      cases e
      cases hy : recordItems y with
      | error e2 =>
        cases e2
        simp only [items, hx, hy, error_bind]
        exact ⟨trivial, fun l1 l2 h1 h2 => Except.noConfusion h1⟩
      | ok sy =>
        simp only [items, hx, hy, error_bind, ok_bind]
        exact ⟨trivial, fun l1 l2 h1 h2 => Except.noConfusion h1⟩
    | ok sx =>
      cases hy : recordItems y with
      | error e2 =>
        cases e2
        simp only [items, hx, hy, error_bind, ok_bind]
        exact ⟨trivial, fun l1 l2 h1 h2 => Except.noConfusion h1⟩
      | ok sy =>
        simp only [items, hx, hy, ok_bind]
        cases hu : items t with
        | error e =>
          cases e
          simp only [hu, error_bind]
          exact ⟨trivial, fun l1 l2 h1 h2 => Except.noConfusion h1⟩
        | ok u =>
          simp only [hu, ok_bind]
          refine ⟨by simp, fun l1 l2 h1 h2 => ?_⟩
          cases h1; cases h2
          rw [← List.append_assoc, ← List.append_assoc]
          exact (List.perm_append_comm).append_right u
  | @trans d1 d2 d3 p1 p2 ih1 ih2 =>
    refine ⟨ih1.1.trans ih2.1, fun l1 l3 h1 h3 => ?_⟩
    cases h2 : items d2 with
    | error e =>
      cases e
      have h4 := ih2.1.mp h2
      rw [h4] at h3
      exact Except.noConfusion h3
    | ok l2 => exact (ih1.2 l1 l2 h1 h2).trans (ih2.2 l2 l3 h2 h3)

theorem items_list_perm (c1 c2 : List Ident) (hp : c1.Perm c2) :
    items_list c1 = items_list c2 :=
  List.eq_of_perm_of_sorted
    ((List.perm_insertionSort _ _).trans (hp.dedup.trans (List.perm_insertionSort _ _).symm))
    (items_list_sorted c1) (items_list_sorted c2)

/-- Claim C1 (amended): the item identity table is built over exactly the
union of the `item_id` of every event and every truthy (present and not falsy)
`next_item_id`; its size equals the cardinality of that set; ID `i` is
assigned to the `i`-th element of the set in ascending order; and the
mapping is the same regardless of input iteration order. -/
theorem claim_C1 (data data' : List RawEvent) (col col' : List Ident)
    (h : items data = .ok col) (hp : data.Perm data') (h' : items data' = .ok col') :
    (∀ v, v ∈ items_list col ↔ (∃ r ∈ data, r.item_id = some v) ∨
      (∃ r ∈ data, r.next_item_id = some v ∧ v.truthy))
    ∧ (items_list col).length = col.toFinset.card
    ∧ List.Sorted (· ≤ ·) (items_list col)
    ∧ (∀ i (hi : i < (items_list col).length), id_map col ((items_list col).get ⟨i, hi⟩) = i)
    ∧ items_list col' = items_list col
    ∧ (id_map col' : Ident → Nat) = (id_map col : Ident → Nat) := by
  have hperm : col.Perm col' := (items_perm_aux data data' hp).2 col col' h h'
  have htab : items_list col' = items_list col := items_list_perm col' col hperm.symm
  refine ⟨fun v => (items_list_mem col v).trans (items_ok_mem data v col h),
    items_list_length col, items_list_sorted col, id_map_rank col, htab, ?_⟩
  funext v
  show (items_list col').indexOf v = (items_list col).indexOf v
  rw [htab]

/-- Claim C1, as stated, is false: an event whose `next_item_id` is present
but falsy (here the integer 0, which is non-null) contributes no identifier
to the item table, so the table is not the union over all non-null
`next_item_id` values and its size differs from the cardinality of that union. -/
theorem claim_C1_cex :
    items [(⟨some (.int 1), some (.int 0), none⟩ : RawEvent)] = .ok [.int 1]
    ∧ ((⟨some (.int 1), some (.int 0), none⟩ : RawEvent) ∈
        [(⟨some (.int 1), some (.int 0), none⟩ : RawEvent)]
      ∧ (⟨some (.int 1), some (.int 0), none⟩ : RawEvent).next_item_id = some (.int 0))
    ∧ Ident.int 0 ∉ items_list [.int 1]
    ∧ ¬ ((items_list [.int 1]).length =
        ({Ident.int 0, Ident.int 1} : Finset Ident).card) := by decide

theorem claim_C1_witness :
    items [(⟨some (.int 10), some (.int 20), none⟩ : RawEvent),
        ⟨some (.int 30), none, none⟩] = .ok [.int 10, .int 20, .int 30]
    ∧ [(⟨some (.int 10), some (.int 20), none⟩ : RawEvent),
        ⟨some (.int 30), none, none⟩].Perm
        [⟨some (.int 30), none, none⟩, ⟨some (.int 10), some (.int 20), none⟩]
    ∧ ((∀ v, v ∈ items_list [.int 10, .int 20, .int 30] ↔
        (∃ r ∈ [(⟨some (.int 10), some (.int 20), none⟩ : RawEvent),
          ⟨some (.int 30), none, none⟩], r.item_id = some v) ∨
        (∃ r ∈ [(⟨some (.int 10), some (.int 20), none⟩ : RawEvent),
          ⟨some (.int 30), none, none⟩], r.next_item_id = some v ∧ v.truthy))
      ∧ (items_list [.int 10, .int 20, .int 30]).length =
          ([Ident.int 10, .int 20, .int 30].toFinset).card
      ∧ List.Sorted (· ≤ ·) (items_list [.int 10, .int 20, .int 30])
      ∧ (∀ i (hi : i < (items_list [.int 10, .int 20, .int 30]).length),
          id_map [.int 10, .int 20, .int 30]
            ((items_list [.int 10, .int 20, .int 30]).get ⟨i, hi⟩) = i)
      ∧ items_list [.int 30, .int 10, .int 20] = items_list [.int 10, .int 20, .int 30]
      ∧ (id_map [Ident.int 30, Ident.int 10, Ident.int 20] : Ident → Nat) =
          (id_map [Ident.int 10, Ident.int 20, Ident.int 30] : Ident → Nat)) :=
  ⟨by decide, by decide,
    claim_C1 [⟨some (.int 10), some (.int 20), none⟩, ⟨some (.int 30), none, none⟩]
      [⟨some (.int 30), none, none⟩, ⟨some (.int 10), some (.int 20), none⟩]
      [.int 10, .int 20, .int 30] [.int 30, .int 10, .int 20]
      (by decide) (by decide) (by decide)⟩

theorem addNew_mem (s : List String) (x y : String) : y ∈ addNew s x ↔ y ∈ s ∨ y = x := by
  simp only [addNew]
  split
  · rename_i h
    constructor
    · exact Or.inl
    · rintro (h1 | rfl)
      · exact h1
      · exact h
  · simp

theorem fold_weight (idm : Ident → Nat) (l : List (Ident × Ident × Option Ident))
    (agg0 : NextAgg) (k : Nat × Nat) :
    (l.foldl (applyContrib idm) agg0).weight k =
      agg0.weight k + l.countP (fun x => (idm x.1, idm x.2.1) = k) := by
  induction l generalizing agg0 with
  | nil => simp
  | cons x t ih =>
    rw [List.foldl_cons, ih, List.countP_cons]
    by_cases hk : k = (idm x.1, idm x.2.1)
    · subst hk
      simp [applyContrib]
      try omega
    · have h2 : ¬((idm x.1, idm x.2.1) = k) := fun h => hk h.symm
      simp [applyContrib, hk, h2]
      try omega

theorem fold_sessions (idm : Ident → Nat) (l : List (Ident × Ident × Option Ident))
    (agg0 : NextAgg) (k : Nat × Nat) (str0 : String) :
    str0 ∈ (l.foldl (applyContrib idm) agg0).sessions k ↔ str0 ∈ agg0.sessions k
      ∨ ∃ x ∈ l, (idm x.1, idm x.2.1) = k ∧ ∃ sid, x.2.2 = some sid ∧ sid.toStr = str0 := by
  induction l generalizing agg0 with
  | nil => simp
  | cons x t ih =>
    rw [List.foldl_cons, ih, List.exists_mem_cons_iff]
    by_cases hk : k = (idm x.1, idm x.2.1)
    · subst hk
      cases hs : x.2.2 with
      | none => simp [applyContrib, hs]
      | some sid => simp [applyContrib, hs, addNew_mem]; tauto
    · have h2 : ¬((idm x.1, idm x.2.1) = k) := fun h => hk h.symm
      simp [applyContrib, hk, h2]

theorem fold_keys_mem (idm : Ident → Nat) (l : List (Ident × Ident × Option Ident))
    (agg0 : NextAgg) (k : Nat × Nat) :
    k ∈ (l.foldl (applyContrib idm) agg0).keys ↔ k ∈ agg0.keys
      ∨ ∃ x ∈ l, (idm x.1, idm x.2.1) = k := by
  induction l generalizing agg0 with
  | nil => simp
  | cons x t ih =>
    rw [List.foldl_cons, ih, List.exists_mem_cons_iff]
    by_cases hmem : (idm x.1, idm x.2.1) ∈ agg0.keys
    · simp [applyContrib, hmem]
      constructor
      · tauto
      · rintro (h | rfl | h) <;> tauto
    · simp [applyContrib, hmem, List.mem_append]
      tauto

theorem fold_keys_nodup (idm : Ident → Nat) (l : List (Ident × Ident × Option Ident))
    (agg0 : NextAgg) (h : agg0.keys.Nodup) :
    (l.foldl (applyContrib idm) agg0).keys.Nodup := by
  induction l generalizing agg0 with
  | nil => exact h
  | cons x t ih =>
    rw [List.foldl_cons]
    apply ih
    by_cases hmem : (idm x.1, idm x.2.1) ∈ agg0.keys
    · simpa [applyContrib, hmem] using h
    · have hkeq : (applyContrib idm agg0 x).keys =
          agg0.keys ++ [(idm x.1, idm x.2.1)] := by simp [applyContrib, hmem]
      rw [hkeq]
      refine List.Nodup.append h (List.nodup_singleton _) ?_
      intro a ha hb
      simp only [List.mem_singleton] at hb
      subst hb
      exact hmem ha

theorem transOf_ok_none (r : RawEvent) :
    transOf r = .ok none ↔ truthyOpt r.next_item_id = none := by
  cases hn : truthyOpt r.next_item_id with
  | none => simp [transOf, hn]
  | some w =>
    cases hi : r.item_id with
    | none => simp [transOf, hn, hi]
    | some v => simp [transOf, hn, hi]

theorem transOf_ok_some (r : RawEvent) (x : Ident × Ident × Option Ident) :
    transOf r = .ok (some x) ↔
      r.item_id = some x.1 ∧ truthyOpt r.next_item_id = some x.2.1
        ∧ truthyOpt r.session_id = x.2.2 := by
  cases hn : truthyOpt r.next_item_id with
  | none => simp [transOf, hn]
  | some w =>
    cases hi : r.item_id with
    | none => simp [transOf, hn, hi]
    | some v =>
      simp only [transOf, hn, hi, Except.ok.injEq, Option.some.injEq]
      constructor
      · rintro rfl
        exact ⟨rfl, rfl, rfl⟩
      · rintro ⟨h1, h2, h3⟩
        cases h1
        cases h2
        obtain ⟨x1, x2, x3⟩ := x
        simp only at h3 ⊢
        rw [h3]

theorem transitions_ok_mem (data : List RawEvent) (l : List (Ident × Ident × Option Ident))
    (h : transitions data = .ok l) (x : Ident × Ident × Option Ident) :
    x ∈ l ↔ ∃ r ∈ data, r.item_id = some x.1 ∧ truthyOpt r.next_item_id = some x.2.1
      ∧ truthyOpt r.session_id = x.2.2 := by
  induction data generalizing l with
  | nil =>
    simp only [transitions] at h
    cases h
    simp
  | cons r rs ih =>
    cases ho : transOf r with
    | error e => simp [transitions, ho] at h
    | ok o =>
      cases ht : transitions rs with
      | error e => simp [transitions, ho, ht] at h
      | ok t =>
        simp only [transitions, ho, ht, ok_bind] at h
        cases h
        rw [List.exists_mem_cons_iff]
        cases o with
        | none =>
          rw [ih t ht]
          have hnone : ¬ (r.item_id = some x.1 ∧ truthyOpt r.next_item_id = some x.2.1
              ∧ truthyOpt r.session_id = x.2.2) := by
            rintro ⟨h1, h2, h3⟩
            rw [(transOf_ok_none r).mp ho] at h2
            cases h2
          simp [hnone]
        | some y =>
          rw [List.mem_cons, ih t ht]
          constructor
          · rintro (rfl | hx)
            · exact Or.inl ((transOf_ok_some r x).mp ho)
            · exact Or.inr hx
          · rintro (hx | hx)
            · left
              have hy := (transOf_ok_some r y).mp ho
              obtain ⟨x1, x2, x3⟩ := x
              obtain ⟨y1, y2, y3⟩ := y
              simp only at hx hy
              obtain ⟨ha1, ha2, ha3⟩ := hx
              obtain ⟨hb1, hb2, hb3⟩ := hy
              rw [ha1] at hb1
              rw [ha2] at hb2
              cases hb1
              cases hb2
              rw [← ha3, ← hb3]
            · exact Or.inr hx

theorem transitions_ok_length (data : List RawEvent)
    (l : List (Ident × Ident × Option Ident)) (h : transitions data = .ok l) :
    l.length = data.countP (fun r => (truthyOpt r.next_item_id).isSome) := by
  induction data generalizing l with
  | nil =>
    simp only [transitions] at h
    cases h
    rfl
  | cons r rs ih =>
    cases ho : transOf r with
    | error e => simp [transitions, ho] at h
    | ok o =>
      cases ht : transitions rs with
      | error e => simp [transitions, ho, ht] at h
      | ok t =>
        simp only [transitions, ho, ht, ok_bind] at h
        cases h
        rw [List.countP_cons]
        cases o with
        | none =>
          have hn := (transOf_ok_none r).mp ho
          simp [hn, ih t ht]
        | some y =>
          have hy := (transOf_ok_some r y).mp ho
          simp [hy.2.1, ih t ht]

theorem sum_countP_toFinset {β : Type} [DecidableEq β] (m : List β) :
    ∑ k ∈ m.toFinset, m.countP (fun a => a = k) = m.length := by
  induction m with
  | nil => simp
  | cons b m ih =>
    simp only [List.countP_cons, List.toFinset_cons, List.length_cons]
    rw [Finset.sum_add_distrib]
    have h1 : (∑ k ∈ insert b m.toFinset, if (fun a => decide (a = k)) b then 1 else 0) = 1 := by
      have h2 : ∀ k ∈ insert b m.toFinset,
          (if (fun a => decide (a = k)) b then 1 else 0) = if k = b then 1 else 0 := by
        intro k _
        simp [eq_comm]
      rw [Finset.sum_congr rfl h2, Finset.sum_ite_eq' (insert b m.toFinset) b (fun _ => 1)]
      simp
    have h3 : (∑ k ∈ insert b m.toFinset, m.countP (fun a => a = k)) = m.length := by
      by_cases hb : b ∈ m.toFinset
      · rw [Finset.insert_eq_self.mpr hb]
        exact ih
      · rw [Finset.sum_insert hb]
        have h4 : m.countP (fun a => a = b) = 0 := by
          rw [List.countP_eq_zero]
          intro a ha hab
          exact hb (List.mem_toFinset.mpr ((of_decide_eq_true hab) ▸ ha))
        rw [h4, Nat.zero_add, ih]
    rw [h1, h3]

theorem agg_keys_sum (idm : Ident → Nat) (l : List (Ident × Ident × Option Ident)) :
    ((l.foldl (applyContrib idm) emptyAgg).keys.map
      (l.foldl (applyContrib idm) emptyAgg).weight).sum = l.length := by
  have hnodup : (l.foldl (applyContrib idm) emptyAgg).keys.Nodup :=
    fold_keys_nodup idm l emptyAgg (by simp [emptyAgg])
  have hsets : (l.foldl (applyContrib idm) emptyAgg).keys.toFinset =
      (l.map (fun x => (idm x.1, idm x.2.1))).toFinset := by
    ext k
    rw [List.mem_toFinset, List.mem_toFinset, fold_keys_mem, List.mem_map]
    simp [emptyAgg]
  have hw : ∀ k, (l.foldl (applyContrib idm) emptyAgg).weight k =
      (l.map (fun x => (idm x.1, idm x.2.1))).countP (fun a => a = k) := by
    intro k
    rw [fold_weight, List.countP_map]
    simp only [emptyAgg, Nat.zero_add]
    apply List.countP_congr
    intro x _
    simp [Function.comp]
  rw [← List.sum_toFinset _ hnodup, Finset.sum_congr hsets (fun k _ => hw k),
    sum_countP_toFinset, List.length_map]

theorem containOf_ok_none (r : RawEvent) :
    containOf r = .ok none ↔ truthyOpt r.session_id = none := by
  cases hs : truthyOpt r.session_id with
  | none => simp [containOf, hs]
  | some sid =>
    cases hi : r.item_id with
    | none => simp [containOf, hs, hi]
    | some v => simp [containOf, hs, hi]

theorem containOf_ok_some (r : RawEvent) (p : Ident × Ident) :
    containOf r = .ok (some p) ↔
      truthyOpt r.session_id = some p.1 ∧ r.item_id = some p.2 := by
  cases hs : truthyOpt r.session_id with
  | none => simp [containOf, hs]
  | some sid =>
    cases hi : r.item_id with
    | none => simp [containOf, hs, hi]
    | some v =>
      simp only [containOf, hs, hi, Except.ok.injEq, Option.some.injEq]
      constructor
      · rintro rfl
        exact ⟨rfl, rfl⟩
      · rintro ⟨h1, h2⟩
        cases h1
        cases h2
        obtain ⟨p1, p2⟩ := p
        rfl

theorem containList_ok_mem (data : List RawEvent) (cl : List (Ident × Ident))
    (h : containList data = .ok cl) (p : Ident × Ident) :
    p ∈ cl ↔ ∃ r ∈ data, truthyOpt r.session_id = some p.1 ∧ r.item_id = some p.2 := by
  induction data generalizing cl with
  | nil =>
    simp only [containList] at h
    cases h
    simp
  | cons r rs ih =>
    cases ho : containOf r with
    | error e => simp [containList, ho] at h
    | ok o =>
      cases ht : containList rs with
      | error e => simp [containList, ho, ht] at h
      | ok t =>
        simp only [containList, ho, ht, ok_bind] at h
        cases h
        rw [List.exists_mem_cons_iff]
        cases o with
        | none =>
          rw [ih t ht]
          have hnone : ¬ (truthyOpt r.session_id = some p.1 ∧ r.item_id = some p.2) := by
            rintro ⟨h1, h2⟩
            rw [(containOf_ok_none r).mp ho] at h1
            cases h1
          simp [hnone]
        | some q =>
          rw [List.mem_cons, ih t ht]
          have hq := (containOf_ok_some r q).mp ho
          constructor
          · rintro (rfl | hx)
            · exact Or.inl ((containOf_ok_some r p).mp ho)
            · exact Or.inr hx
          · rintro (hx | hx)
            · left
              obtain ⟨p1, p2⟩ := p
              obtain ⟨q1, q2⟩ := q
              simp only at hx hq
              obtain ⟨ha1, ha2⟩ := hx
              obtain ⟨hb1, hb2⟩ := hq
              rw [ha1] at hb1
              rw [ha2] at hb2
              cases hb1
              cases hb2
              rfl
            · exact Or.inr hx

/-- Claim C2 (amended): the sum of `weight` over all aggregated transition
edges equals the number of events with a truthy `next_item_id`; the
evidence of an edge is exactly the stringified truthy session identifiers of the
events that produced that edge; and the containment set contains exactly
the resolved (session, item) pair of every event with a truthy
`session_id`. -/
theorem claim_C2 (idm smap : Ident → Nat) (data : List RawEvent) (agg : NextAgg)
    (cont : Finset (Nat × Nat)) (ha : next_agg idm data = .ok agg)
    (hc : contains idm smap data = .ok cont) :
    (agg.keys.map agg.weight).sum =
        data.countP (fun r => (truthyOpt r.next_item_id).isSome)
    ∧ (∀ k str0, str0 ∈ agg.sessions k ↔ ∃ r ∈ data, ∃ v w sid,
        r.item_id = some v ∧ r.next_item_id = some w ∧ w.truthy
          ∧ (idm v, idm w) = k ∧ r.session_id = some sid ∧ sid.truthy ∧ sid.toStr = str0)
    ∧ (∀ p, p ∈ cont ↔ ∃ r ∈ data, ∃ v sid,
        r.item_id = some v ∧ r.session_id = some sid ∧ sid.truthy
          ∧ p = (smap sid, idm v)) := by
  refine ⟨?_, ?_, ?_⟩
  · cases ht : transitions data with
    | error e => rw [next_agg, ht] at ha; cases ha
    | ok l =>
      rw [next_agg, ht] at ha
      simp only [Except.map] at ha
      cases ha
      rw [agg_keys_sum, transitions_ok_length data l ht]
  · cases ht : transitions data with
    | error e => rw [next_agg, ht] at ha; cases ha
    | ok l =>
      rw [next_agg, ht] at ha
      simp only [Except.map] at ha
      cases ha
      intro k str0
      rw [fold_sessions]
      simp only [emptyAgg, List.not_mem_nil, false_or]
      constructor
      · rintro ⟨x, hx, hkey, sid, hx22, hstr⟩
        obtain ⟨r, hr, hitem, hnextT, hsessT⟩ := (transitions_ok_mem data l ht x).mp hx
        obtain ⟨hnext, hwt⟩ := (truthyOpt_eq_some _ _).mp hnextT
        rw [hx22] at hsessT
        obtain ⟨hsess, hst⟩ := (truthyOpt_eq_some _ _).mp hsessT
        exact ⟨r, hr, x.1, x.2.1, sid, hitem, hnext, hwt, hkey, hsess, hst, hstr⟩
      · rintro ⟨r, hr, v, w, sid, hitem, hnext, hwt, hkey, hsess, hst, hstr⟩
        refine ⟨(v, w, some sid), ?_, hkey, sid, rfl, hstr⟩
        apply (transitions_ok_mem data l ht (v, w, some sid)).mpr
        refine ⟨r, hr, hitem, ?_, ?_⟩
        · exact (truthyOpt_eq_some _ _).mpr ⟨hnext, hwt⟩
        · exact (truthyOpt_eq_some _ _).mpr ⟨hsess, hst⟩
  · cases hl : containList data with
    | error e => rw [contains, hl] at hc; cases hc
    | ok cl =>
      rw [contains, hl] at hc
      simp only [Except.map] at hc
      cases hc
      intro p
      rw [List.mem_toFinset, List.mem_map]
      constructor
      · rintro ⟨q, hq, rfl⟩
        obtain ⟨r, hr, hsessT, hitem⟩ := (containList_ok_mem data cl hl q).mp hq
        obtain ⟨hsess, hst⟩ := (truthyOpt_eq_some _ _).mp hsessT
        exact ⟨r, hr, q.2, q.1, hitem, hsess, hst, rfl⟩
      · rintro ⟨r, hr, v, sid, hitem, hsess, hst, rfl⟩
        refine ⟨(sid, v), ?_, rfl⟩
        apply (containList_ok_mem data cl hl (sid, v)).mpr
        exact ⟨r, hr, (truthyOpt_eq_some _ _).mpr ⟨hsess, hst⟩, hitem⟩

/-- Claim C2, as stated, is false: events whose `next_item_id` or
`session_id` is present but falsy (non-null 0) are skipped by the
truthiness guards, so the weight sum undercounts the non-null
`next_item_id` events, and a falsy session contributes neither evidence
nor a containment pair. -/
theorem claim_C2_cex :
    (next_agg (fun _ => 0) [(⟨some (.int 1), some (.int 0), none⟩ : RawEvent)]).map
        (fun a => (a.keys.map a.weight).sum) = .ok 0
    ∧ List.countP (fun r => r.next_item_id ≠ none)
        [(⟨some (.int 1), some (.int 0), none⟩ : RawEvent)] = 1
    ∧ (next_agg (fun v => if v = Ident.int 1 then 0 else 1)
        [(⟨some (.int 1), some (.int 2), some (.int 0)⟩ : RawEvent)]).map
        (fun a => a.sessions (0, 1)) = .ok []
    ∧ contains (fun v => if v = Ident.int 1 then 0 else 1) (fun _ => 0)
        [(⟨some (.int 1), some (.int 2), some (.int 0)⟩ : RawEvent)] = .ok ∅
    ∧ (⟨some (.int 1), some (.int 2), some (.int 0)⟩ : RawEvent).session_id ≠ none := by
  decide

theorem claim_C2_witness :
    ((List.foldl (applyContrib (fun v => if v = Ident.int 1 then 0 else 1)) emptyAgg
        [(Ident.int 1, Ident.int 2, some (Ident.int 7))]).keys.map
      (List.foldl (applyContrib (fun v => if v = Ident.int 1 then 0 else 1)) emptyAgg
        [(Ident.int 1, Ident.int 2, some (Ident.int 7))]).weight).sum =
        List.countP (fun r => (truthyOpt r.next_item_id).isSome)
          [(⟨some (.int 1), some (.int 2), some (.int 7)⟩ : RawEvent)]
    ∧ (∀ k str0, str0 ∈ (List.foldl (applyContrib (fun v => if v = Ident.int 1 then 0 else 1)) emptyAgg
        [(Ident.int 1, Ident.int 2, some (Ident.int 7))]).sessions k ↔
        ∃ r ∈ [(⟨some (.int 1), some (.int 2), some (.int 7)⟩ : RawEvent)], ∃ v w sid,
        r.item_id = some v ∧ r.next_item_id = some w ∧ w.truthy
          ∧ ((fun v => if v = Ident.int 1 then 0 else 1) v, (fun v => if v = Ident.int 1 then 0 else 1) w) = k
          ∧ r.session_id = some sid ∧ sid.truthy ∧ sid.toStr = str0)
    ∧ (∀ p, p ∈ ({(0, 0)} : Finset (Nat × Nat)) ↔
        ∃ r ∈ [(⟨some (.int 1), some (.int 2), some (.int 7)⟩ : RawEvent)], ∃ v sid,
        r.item_id = some v ∧ r.session_id = some sid ∧ sid.truthy
          ∧ p = ((fun _ => (0 : Nat)) sid, (fun v => if v = Ident.int 1 then 0 else 1) v)) :=
  claim_C2 (fun v => if v = Ident.int 1 then 0 else 1) (fun _ => (0 : Nat))
    [(⟨some (.int 1), some (.int 2), some (.int 7)⟩ : RawEvent)]
    (List.foldl (applyContrib (fun v => if v = Ident.int 1 then 0 else 1)) emptyAgg
        [(Ident.int 1, Ident.int 2, some (Ident.int 7))]) {(0, 0)} rfl (by decide)

theorem transitions_perm (d1 d2 : List RawEvent) (hp : d1.Perm d2) :
    (transitions d1 = .error .MissingRequiredField ↔
      transitions d2 = .error .MissingRequiredField)
    ∧ ∀ l1 l2, transitions d1 = .ok l1 → transitions d2 = .ok l2 → l1.Perm l2 := by
  induction hp with
  | nil =>
    refine ⟨Iff.rfl, fun l1 l2 h1 h2 => ?_⟩
    simp only [transitions] at h1 h2
    cases h1; cases h2
    rfl
  | @cons x t1 t2 hpt ih =>
    cases hx : transOf x with
    | error e =>
      cases e
      simp only [transitions, hx, error_bind]
      exact ⟨trivial, fun l1 l2 h1 h2 => Except.noConfusion h1⟩
    | ok o =>
      simp only [transitions, hx, ok_bind]
      constructor
      · cases h1 : transitions t1 with
        | error e =>
          cases e
          have h2 := ih.1.mp h1
          simp [h1, h2]
        | ok u1 =>
          cases h2 : transitions t2 with
          | error e =>
            cases e
            have h3 := ih.1.mpr h2
            rw [h3] at h1
            exact Except.noConfusion h1
          | ok u2 => simp
      · intro l1 l2 h1 h2
        cases hu1 : transitions t1 with
        | error e => rw [hu1] at h1; exact Except.noConfusion h1
        | ok u1 =>
          cases hu2 : transitions t2 with
          | error e => rw [hu2] at h2; exact Except.noConfusion h2
          | ok u2 =>
            rw [hu1] at h1
            rw [hu2] at h2
            simp only [ok_bind] at h1 h2
            cases h1; cases h2
            cases o with
            | none => exact ih.2 u1 u2 hu1 hu2
            | some a => exact (ih.2 u1 u2 hu1 hu2).cons a
  | @swap x y t =>
    cases hx : transOf x with
    | error e =>
      cases e
      cases hy : transOf y with
      | error e2 =>
        cases e2
        simp only [transitions, hx, hy, error_bind]
        exact ⟨trivial, fun l1 l2 h1 h2 => Except.noConfusion h1⟩
      | ok sy =>
        simp only [transitions, hx, hy, error_bind, ok_bind]
        exact ⟨trivial, fun l1 l2 h1 h2 => Except.noConfusion h1⟩
    | ok sx =>
      cases hy : transOf y with
      | error e2 =>
        cases e2
        simp only [transitions, hx, hy, error_bind, ok_bind]
        exact ⟨trivial, fun l1 l2 h1 h2 => Except.noConfusion h2⟩
      | ok sy =>
        simp only [transitions, hx, hy, ok_bind]
        cases hu : transitions t with
        | error e =>
          cases e
          simp only [hu, error_bind]
          exact ⟨trivial, fun l1 l2 h1 h2 => Except.noConfusion h1⟩
        | ok u =>
          simp only [hu, ok_bind]
          refine ⟨by simp, fun l1 l2 h1 h2 => ?_⟩
          cases h1; cases h2
          cases sx with
          | none => exact List.Perm.refl _
          | some ax =>
            cases sy with
            | none => exact List.Perm.refl _
            | some ay => exact List.Perm.swap ax ay u
  | @trans d1 d2 d3 p1 p2 ih1 ih2 =>
    refine ⟨ih1.1.trans ih2.1, fun l1 l3 h1 h3 => ?_⟩
    cases h2 : transitions d2 with
    | error e =>
      cases e
      have h4 := ih2.1.mp h2
      rw [h4] at h3
      exact Except.noConfusion h3
    | ok l2 => exact (ih1.2 l1 l2 h1 h2).trans (ih2.2 l2 l3 h2 h3)

theorem containList_perm (d1 d2 : List RawEvent) (hp : d1.Perm d2) :
    (containList d1 = .error .MissingRequiredField ↔
      containList d2 = .error .MissingRequiredField)
    ∧ ∀ l1 l2, containList d1 = .ok l1 → containList d2 = .ok l2 → l1.Perm l2 := by
  induction hp with
  | nil =>
    refine ⟨Iff.rfl, fun l1 l2 h1 h2 => ?_⟩
    simp only [containList] at h1 h2
    cases h1; cases h2
    rfl
  | @cons x t1 t2 hpt ih =>
    cases hx : containOf x with
    | error e =>
      cases e
      simp only [containList, hx, error_bind]
      exact ⟨trivial, fun l1 l2 h1 h2 => Except.noConfusion h1⟩
    | ok o =>
      simp only [containList, hx, ok_bind]
      constructor
      · cases h1 : containList t1 with
        | error e =>
          cases e
          have h2 := ih.1.mp h1
          simp [h1, h2]
        | ok u1 =>
          cases h2 : containList t2 with
          | error e =>
            cases e
            have h3 := ih.1.mpr h2
            rw [h3] at h1
            exact Except.noConfusion h1
          | ok u2 => simp
      · intro l1 l2 h1 h2
        cases hu1 : containList t1 with
        | error e => rw [hu1] at h1; exact Except.noConfusion h1
        | ok u1 =>
          cases hu2 : containList t2 with
          | error e => rw [hu2] at h2; exact Except.noConfusion h2
          | ok u2 =>
            rw [hu1] at h1
            rw [hu2] at h2
            simp only [ok_bind] at h1 h2
            cases h1; cases h2
            cases o with
            | none => exact ih.2 u1 u2 hu1 hu2
            | some a => exact (ih.2 u1 u2 hu1 hu2).cons a
  | @swap x y t =>
    cases hx : containOf x with
    | error e =>
      cases e
      cases hy : containOf y with
      | error e2 =>
        cases e2
        simp only [containList, hx, hy, error_bind]
        exact ⟨trivial, fun l1 l2 h1 h2 => Except.noConfusion h1⟩
      | ok sy =>
        simp only [containList, hx, hy, error_bind, ok_bind]
        exact ⟨trivial, fun l1 l2 h1 h2 => Except.noConfusion h1⟩
    | ok sx =>
      cases hy : containOf y with
      | error e2 =>
        cases e2
        simp only [containList, hx, hy, error_bind, ok_bind]
        exact ⟨trivial, fun l1 l2 h1 h2 => Except.noConfusion h2⟩
      | ok sy =>
        simp only [containList, hx, hy, ok_bind]
        cases hu : containList t with
        | error e =>
          cases e
          simp only [hu, error_bind]
          exact ⟨trivial, fun l1 l2 h1 h2 => Except.noConfusion h1⟩
        | ok u =>
          simp only [hu, ok_bind]
          refine ⟨by simp, fun l1 l2 h1 h2 => ?_⟩
          cases h1; cases h2
          cases sx with
          | none => exact List.Perm.refl _
          | some ax =>
            cases sy with
            | none => exact List.Perm.refl _
            | some ay => exact List.Perm.swap ax ay u
  | @trans d1 d2 d3 p1 p2 ih1 ih2 =>
    refine ⟨ih1.1.trans ih2.1, fun l1 l3 h1 h3 => ?_⟩
    cases h2 : containList d2 with
    | error e =>
      cases e
      have h4 := ih2.1.mp h2
      rw [h4] at h3
      exact Except.noConfusion h3
    | ok l2 => exact (ih1.2 l1 l2 h1 h2).trans (ih2.2 l2 l3 h2 h3)

/-- Claim C6: aggregating any permutation of the input event list yields
the same transition-edge weights, the same evidence sets, the same edge
key set, and the same containment set. -/
theorem claim_C6 (idm smap : Ident → Nat) (d1 d2 : List RawEvent) (hp : d1.Perm d2)
    (agg1 agg2 : NextAgg) (c1 c2 : Finset (Nat × Nat))
    (h1 : next_agg idm d1 = .ok agg1) (h2 : next_agg idm d2 = .ok agg2)
    (hc1 : contains idm smap d1 = .ok c1) (hc2 : contains idm smap d2 = .ok c2) :
    (∀ k, agg1.weight k = agg2.weight k)
    ∧ (∀ k, (agg1.sessions k).toFinset = (agg2.sessions k).toFinset)
    ∧ agg1.keys.toFinset = agg2.keys.toFinset
    ∧ c1 = c2 := by
  cases ht1 : transitions d1 with
  | error e => rw [next_agg, ht1] at h1; cases h1
  | ok l1 =>
    cases ht2 : transitions d2 with
    | error e => rw [next_agg, ht2] at h2; cases h2
    | ok l2 =>
      rw [next_agg, ht1] at h1
      simp only [Except.map] at h1
      cases h1
      rw [next_agg, ht2] at h2
      simp only [Except.map] at h2
      cases h2
      have hlp : l1.Perm l2 := (transitions_perm d1 d2 hp).2 l1 l2 ht1 ht2
      refine ⟨?_, ?_, ?_, ?_⟩
      · intro k
        rw [fold_weight, fold_weight]
        simp only [emptyAgg]
        rw [hlp.countP_eq]
      · intro k
        ext str0
        rw [List.mem_toFinset, List.mem_toFinset, fold_sessions, fold_sessions]
        simp only [emptyAgg, List.not_mem_nil, false_or]
        constructor
        · rintro ⟨x, hx, hrest⟩
          exact ⟨x, hlp.mem_iff.mp hx, hrest⟩
        · rintro ⟨x, hx, hrest⟩
          exact ⟨x, hlp.mem_iff.mpr hx, hrest⟩
      · ext k
        rw [List.mem_toFinset, List.mem_toFinset, fold_keys_mem, fold_keys_mem]
        simp only [emptyAgg, List.not_mem_nil, false_or]
        constructor
        · rintro ⟨x, hx, hrest⟩
          exact ⟨x, hlp.mem_iff.mp hx, hrest⟩
        · rintro ⟨x, hx, hrest⟩
          exact ⟨x, hlp.mem_iff.mpr hx, hrest⟩
      · cases hl1 : containList d1 with
        | error e => rw [contains, hl1] at hc1; cases hc1
        | ok cl1 =>
          cases hl2 : containList d2 with
          | error e => rw [contains, hl2] at hc2; cases hc2
          | ok cl2 =>
            rw [contains, hl1] at hc1
            simp only [Except.map] at hc1
            cases hc1
            rw [contains, hl2] at hc2
            simp only [Except.map] at hc2
            cases hc2
            have hclp : cl1.Perm cl2 := (containList_perm d1 d2 hp).2 cl1 cl2 hl1 hl2
            ext p
            rw [List.mem_toFinset, List.mem_toFinset,
              (hclp.map (fun q => (smap q.1, idm q.2))).mem_iff]

theorem claim_C6_witness :
    (∀ k, (List.foldl (applyContrib (fun _ => 0)) emptyAgg
        [(Ident.int 1, Ident.int 2, some (Ident.int 7)),
          (Ident.int 2, Ident.int 1, none)]).weight k =
      (List.foldl (applyContrib (fun _ => 0)) emptyAgg
        [(Ident.int 2, Ident.int 1, none),
          (Ident.int 1, Ident.int 2, some (Ident.int 7))]).weight k)
    ∧ (∀ k, ((List.foldl (applyContrib (fun _ => 0)) emptyAgg
        [(Ident.int 1, Ident.int 2, some (Ident.int 7)),
          (Ident.int 2, Ident.int 1, none)]).sessions k).toFinset =
      ((List.foldl (applyContrib (fun _ => 0)) emptyAgg
        [(Ident.int 2, Ident.int 1, none),
          (Ident.int 1, Ident.int 2, some (Ident.int 7))]).sessions k).toFinset)
    ∧ (List.foldl (applyContrib (fun _ => 0)) emptyAgg
        [(Ident.int 1, Ident.int 2, some (Ident.int 7)),
          (Ident.int 2, Ident.int 1, none)]).keys.toFinset =
      (List.foldl (applyContrib (fun _ => 0)) emptyAgg
        [(Ident.int 2, Ident.int 1, none),
          (Ident.int 1, Ident.int 2, some (Ident.int 7))]).keys.toFinset
    ∧ ({(0, 0)} : Finset (Nat × Nat)) = ({(0, 0)} : Finset (Nat × Nat)) :=
  claim_C6 (fun _ => 0) (fun _ => 0)
    [⟨some (.int 1), some (.int 2), some (.int 7)⟩, ⟨some (.int 2), some (.int 1), none⟩]
    [⟨some (.int 2), some (.int 1), none⟩, ⟨some (.int 1), some (.int 2), some (.int 7)⟩]
    (by decide)
    (List.foldl (applyContrib (fun _ => 0)) emptyAgg
      [(Ident.int 1, Ident.int 2, some (Ident.int 7)), (Ident.int 2, Ident.int 1, none)])
    (List.foldl (applyContrib (fun _ => 0)) emptyAgg
      [(Ident.int 2, Ident.int 1, none), (Ident.int 1, Ident.int 2, some (Ident.int 7))])
    {(0, 0)} {(0, 0)} rfl rfl (by decide) (by decide)

/-- Claim C8 (amended): the items file has the annotated header
`:ID(Item)<TAB>:LABEL` and one row `i<TAB>Item` per item, written in ID
order 0..N-1; the next file has the annotated header
`:START_ID(Item)<TAB>:END_ID(Item)<TAB>weight:int<TAB>sessions:string[]`
and one row per aggregated transition edge whose sessions column is the
evidence joined with `;` and no escaping. -/
theorem claim_C8 (n : Nat) (agg : NextAgg) :
    (items_csv n).length = n + 1
    ∧ (items_csv n).head? = some ":ID(Item)\t:LABEL"
    ∧ (∀ i, i < n → (items_csv n)[i + 1]? = some s!"{i}\tItem")
    ∧ (next_csv agg).head? =
        some ":START_ID(Item)\t:END_ID(Item)\tweight:int\tsessions:string[]"
    ∧ (next_csv agg).length = agg.keys.length + 1
    ∧ next_csv agg = ":START_ID(Item)\t:END_ID(Item)\tweight:int\tsessions:string[]" ::
        agg.keys.map (fun k => renderNextRow (k, agg.weight k, joinStrs (agg.sessions k)))
    ∧ renderNextRow ((1, 2), 3, "x;y") = "1\t2\t3\tx;y"
    ∧ joinStrs ["a;b", "c"] = "a;b;c" := by
  refine ⟨by simp [items_csv], rfl, ?_, rfl, by simp [next_csv, next_rows], ?_, by decide,
    by decide⟩
  · intro i hi
    simp only [items_csv, List.getElem?_cons_succ, List.getElem?_map,
      List.getElem?_range hi]
    rfl
  · simp only [next_csv, next_rows, List.map_map]
    rfl

theorem claim_C8_witness :
    (items_csv 2).length = 2 + 1
    ∧ (items_csv 2).head? = some ":ID(Item)\t:LABEL"
    ∧ (∀ i, i < 2 → (items_csv 2)[i + 1]? = some s!"{i}\tItem")
    ∧ (next_csv emptyAgg).head? =
        some ":START_ID(Item)\t:END_ID(Item)\tweight:int\tsessions:string[]"
    ∧ (next_csv emptyAgg).length = emptyAgg.keys.length + 1
    ∧ next_csv emptyAgg = ":START_ID(Item)\t:END_ID(Item)\tweight:int\tsessions:string[]" ::
        emptyAgg.keys.map
          (fun k => renderNextRow (k, emptyAgg.weight k, joinStrs (emptyAgg.sessions k)))
    ∧ renderNextRow ((1, 2), 3, "x;y") = "1\t2\t3\tx;y"
    ∧ joinStrs ["a;b", "c"] = "a;b;c" :=
  claim_C8 2 emptyAgg

/-- Claim C8, as stated, is false on the literal header text: the code
writes the neo4j-admin annotated headers, not the bare `ID<TAB>LABEL` and
`START_ID<TAB>END_ID<TAB>weight:int<TAB>sessions:string[]` forms. -/
theorem claim_C8_cex :
    (items_csv 0).head? = some ":ID(Item)\t:LABEL"
    ∧ ":ID(Item)\t:LABEL" ≠ "ID\tLABEL"
    ∧ (next_csv emptyAgg).head? =
        some ":START_ID(Item)\t:END_ID(Item)\tweight:int\tsessions:string[]"
    ∧ ":START_ID(Item)\t:END_ID(Item)\tweight:int\tsessions:string[]" ≠
        "START_ID\tEND_ID\tweight:int\tsessions:string[]" := by
  refine ⟨rfl, by decide, rfl, by decide⟩

theorem splitChars_ne_nil (sep : Char) (l : List Char) : splitChars sep l ≠ [] := by
  cases l with
  | nil => simp [splitChars]
  | cons c cs =>
    cases hs : splitChars sep cs with
    | nil => simp [splitChars, hs]
    | cons g gs =>
      simp only [splitChars, hs]
      split <;> simp

theorem splitChars_no_sep (sep : Char) (x : List Char) (hx : sep ∉ x) :
    splitChars sep x = [x] := by
  induction x with
  | nil => rfl
  | cons c cs ih =>
    have hc : ¬(c = sep) := fun h => hx (h ▸ List.mem_cons_self c cs)
    have hcs : sep ∉ cs := fun h => hx (List.mem_cons_of_mem c h)
    simp only [splitChars, ih hcs, if_neg hc]

theorem splitChars_append (sep : Char) (x t : List Char) (hx : sep ∉ x) :
    splitChars sep (x ++ sep :: t) = x :: splitChars sep t := by
  induction x with
  | nil =>
    simp only [List.nil_append]
    cases hs : splitChars sep t with
    | nil => exact absurd hs (splitChars_ne_nil sep t)
    | cons g gs =>
      simp only [splitChars, hs]
      simp
  | cons c cs ih =>
    have hc : ¬(c = sep) := fun h => hx (h ▸ List.mem_cons_self c cs)
    have hcs : sep ∉ cs := fun h => hx (List.mem_cons_of_mem c h)
    rw [List.cons_append]
    rw [show splitChars sep (c :: (cs ++ sep :: t)) =
      (match splitChars sep (cs ++ sep :: t) with
        | [] => [[]]
        | g :: gs => if c = sep then [] :: g :: gs else (c :: g) :: gs) from rfl]
    rw [ih hcs]
    simp [hc]

theorem splitChars_joinChars (sep : Char) (gs : List (List Char)) (hne : gs ≠ [])
    (hsep : ∀ g ∈ gs, sep ∉ g) : splitChars sep (joinChars sep gs) = gs := by
  induction gs with
  | nil => exact absurd rfl hne
  | cons g rest ih =>
    cases rest with
    | nil => exact splitChars_no_sep sep g (hsep g (List.mem_cons_self g []))
    | cons g2 r2 =>
      rw [joinChars, splitChars_append sep g _ (hsep g (List.mem_cons_self g _)),
        ih (List.cons_ne_nil g2 r2) (fun g2' h2' => hsep g2' (List.mem_cons_of_mem g h2'))]

theorem string_eq_empty_iff (s : String) : s = "" ↔ s.data = [] := by
  cases s with
  | mk d =>
    constructor
    · intro h
      rw [show ("" : String) = String.mk [] from rfl] at h
      injection h
    · intro h
      rw [show ("" : String) = String.mk [] from rfl]
      exact congrArg String.mk h

theorem joinStrs_ne_empty (s0 : String) (rest : List String) (h0 : s0 ≠ "") :
    joinStrs (s0 :: rest) ≠ "" := by
  intro h
  rw [string_eq_empty_iff] at h
  cases rest with
  | nil => exact h0 ((string_eq_empty_iff s0).mpr h)
  | cons s1 r1 =>
    have h2 : (joinStrs (s0 :: s1 :: r1)).data =
        s0.data ++ ';' :: joinChars ';' ((s1 :: r1).map String.data) := rfl
    rw [h2] at h
    exact absurd h (by simp)

theorem splitStr_joinStrs (l : List String) (hne : ∀ s ∈ l, s ≠ "")
    (hsep : ∀ s ∈ l, ';' ∉ s.data) : splitStr (joinStrs l) = l := by
  cases l with
  | nil => rfl
  | cons s0 rest =>
    rw [splitStr, if_neg (joinStrs_ne_empty s0 rest (hne s0 (List.mem_cons_self s0 rest)))]
    rw [show (joinStrs (s0 :: rest)).data =
      joinChars ';' ((s0 :: rest).map String.data) from rfl]
    rw [splitChars_joinChars ';' ((s0 :: rest).map String.data) (by simp) ?hsep]
    case hsep =>
      intro g hg
      rw [List.mem_map] at hg
      obtain ⟨s, hs, rfl⟩ := hg
      exact hsep s hs
    rw [List.map_map]
    have hcomp : (String.mk ∘ String.data) = id := funext (fun s => by cases s; rfl)
    rw [hcomp, List.map_id]

theorem toDigitsCore_length_lt (b : Nat) (fuel n : Nat) (ds : List Char) :
    ds.length < (Nat.toDigitsCore b (fuel + 1) n ds).length := by
  induction fuel generalizing n ds with
  | zero =>
    rw [Nat.toDigitsCore]
    split <;> simp [Nat.toDigitsCore]
  | succ f ih =>
    rw [Nat.toDigitsCore]
    split
    · simp
    · exact Nat.lt_trans (Nat.lt_succ_self _) (ih (n / b) (Nat.digitChar (n % b) :: ds))

theorem toDigits_ne_nil (b n : Nat) : Nat.toDigits b n ≠ [] := by
  intro h
  have h2 := toDigitsCore_length_lt b n n []
  rw [show Nat.toDigitsCore b (n + 1) n [] = Nat.toDigits b n from rfl, h] at h2
  simp at h2

theorem nat_repr_ne_empty (n : Nat) : Nat.repr n ≠ "" := by
  intro h
  rw [string_eq_empty_iff] at h
  exact toDigits_ne_nil 10 n h

theorem int_toString_ne_empty (n : Int) : toString n ≠ "" := by
  cases n with
  | ofNat m => exact nat_repr_ne_empty m
  | negSucc m =>
    intro h
    rw [string_eq_empty_iff] at h
    rw [show (toString (Int.negSucc m)).data =
      ("-" : String).data ++ (Nat.repr (m + 1)).data from rfl] at h
    simp at h

theorem toStr_ne_empty_of_truthy (v : Ident) (h : v.truthy) : v.toStr ≠ "" := by
  cases v with
  | int n => exact int_toString_ne_empty n
  | str s =>
    simp only [Ident.truthy, ne_eq, decide_not] at h
    simpa [Ident.toStr] using h

theorem agg_sessions_strings (idm : Ident → Nat) (data : List RawEvent) (agg : NextAgg)
    (ha : next_agg idm data = .ok agg)
    (hsep : ∀ r ∈ data, ∀ sid, r.session_id = some sid → ';' ∉ sid.toStr.data) :
    ∀ k, ∀ str0 ∈ agg.sessions k, str0 ≠ "" ∧ ';' ∉ str0.data := by
  cases ht : transitions data with
  | error e => rw [next_agg, ht] at ha; cases ha
  | ok l =>
    rw [next_agg, ht] at ha
    simp only [Except.map] at ha
    cases ha
    intro k str0 hmem
    rw [fold_sessions] at hmem
    simp only [emptyAgg, List.not_mem_nil, false_or] at hmem
    obtain ⟨x, hx, hkey, sid, hx22, hstr⟩ := hmem
    obtain ⟨r, hr, hitem, hnextT, hsessT⟩ := (transitions_ok_mem data l ht x).mp hx
    rw [hx22] at hsessT
    obtain ⟨hsess, hst⟩ := (truthyOpt_eq_some _ _).mp hsessT
    subst hstr
    exact ⟨toStr_ne_empty_of_truthy sid hst, hsep r hr sid hsess⟩

theorem dedupKeepFirst_mem {β : Type} [DecidableEq β] (l acc : List β) (x : β) :
    x ∈ l.foldl (fun a y => if y ∈ a then a else a ++ [y]) acc ↔ x ∈ acc ∨ x ∈ l := by
  induction l generalizing acc with
  | nil => simp
  | cons y t ih =>
    rw [List.foldl_cons, ih, List.mem_cons]
    by_cases hy : y ∈ acc
    · simp only [if_pos hy]
      constructor
      · rintro (h | h)
        · exact Or.inl h
        · exact Or.inr (Or.inr h)
      · rintro (h | rfl | h)
        · exact Or.inl h
        · exact Or.inl hy
        · exact Or.inr h
    · simp only [if_neg hy, List.mem_append, List.mem_singleton]
      tauto

theorem dedupKeepFirst_toFinset {β : Type} [DecidableEq β] (l : List β) :
    (dedupKeepFirst l).toFinset = l.toFinset := by
  ext x
  rw [List.mem_toFinset, List.mem_toFinset, dedupKeepFirst, dedupKeepFirst_mem]
  simp

/-- Claim C7 (amended): for inputs whose identifier strings contain no list
separator, exporting then re-parsing the interchange files reconstructs the
TransitionEdge map and the ContainmentEdge set exactly, and the
IdentityTables with every identifier replaced by its JSON string form —
identical to the originals exactly when the identifiers are already
strings (JSON object keys are strings, so `json.dump` stringifies them). -/
theorem claim_C7 (data : List RawEvent) (col : List Ident) (agg : NextAgg)
    (crows : List (Nat × Nat)) (cont : Finset (Nat × Nat))
    (hi : items data = .ok col)
    (ha : next_agg (id_map col) data = .ok agg)
    (hcr : contains_rows (id_map col) (session_map data) data = .ok crows)
    (hc : contains (id_map col) (session_map data) data = .ok cont)
    (hsepS : ∀ r ∈ data, ∀ sid, r.session_id = some sid → ';' ∉ sid.toStr.data)
    (hsepI : ∀ r ∈ data, ∀ v, r.item_id = some v → ';' ∉ v.toStr.data) :
    (parseLookup (lookupFile (items_list col) (sessions_list data))).1 =
        (table (items_list col)).map (fun q => (Ident.str q.1.toStr, q.2))
    ∧ (parseLookup (lookupFile (items_list col) (sessions_list data))).2 =
        (table (sessions_list data)).map (fun q => (Ident.str q.1.toStr, q.2))
    ∧ ((∀ v ∈ items_list col, ∃ s0, v = Ident.str s0) →
        (parseLookup (lookupFile (items_list col) (sessions_list data))).1 =
          table (items_list col))
    ∧ ((∀ v ∈ sessions_list data, ∃ s0, v = Ident.str s0) →
        (parseLookup (lookupFile (items_list col) (sessions_list data))).2 =
          table (sessions_list data))
    ∧ parseNextRows (next_rows agg) =
        agg.keys.map (fun k => (k, agg.weight k, (agg.sessions k).toFinset))
    ∧ crows.toFinset = cont := by
  have hlek : ∀ (A : List Ident),
      (A.enum.map (fun p => (p.2.toStr, p.1))).map (fun p => (Ident.str p.1, p.2)) =
        (A.enum.map (fun p => (p.2, p.1))).map (fun q => (Ident.str q.1.toStr, q.2)) := by
    intro A
    rw [List.map_map, List.map_map]
    rfl
  have hexact : ∀ (A : List Ident), (∀ v ∈ A, ∃ s0, v = Ident.str s0) →
      (table A).map (fun q => (Ident.str q.1.toStr, q.2)) = table A := by
    intro A hstr
    conv_rhs => rw [← List.map_id (table A)]
    apply List.map_congr_left
    intro q hq
    obtain ⟨p, hp, rfl⟩ := List.mem_map.mp hq
    obtain ⟨s0, hs0⟩ := hstr p.2 (List.getElem?_mem (List.mem_enum_iff_getElem?.mp hp))
    simp only [hs0, Ident.toStr, id]
  refine ⟨hlek (items_list col), hlek (sessions_list data), ?_, ?_, ?_, ?_⟩
  · intro hstr
    rw [show (parseLookup (lookupFile (items_list col) (sessions_list data))).1 =
      (table (items_list col)).map (fun q => (Ident.str q.1.toStr, q.2)) from
        hlek (items_list col)]
    exact hexact (items_list col) hstr
  · intro hstr
    rw [show (parseLookup (lookupFile (items_list col) (sessions_list data))).2 =
      (table (sessions_list data)).map (fun q => (Ident.str q.1.toStr, q.2)) from
        hlek (sessions_list data)]
    exact hexact (sessions_list data) hstr
  · rw [parseNextRows, next_rows, List.map_map]
    apply List.map_congr_left
    intro k hk
    have hstrs := agg_sessions_strings (id_map col) data agg ha hsepS k
    simp only [Function.comp_apply]
    rw [splitStr_joinStrs (agg.sessions k) (fun s hs => (hstrs s hs).1)
      (fun s hs => (hstrs s hs).2)]
  · cases hl : containList data with
    | error e => rw [contains_rows, hl] at hcr; cases hcr
    | ok cl =>
      rw [contains_rows, hl] at hcr
      simp only [Except.map] at hcr
      cases hcr
      rw [contains, hl] at hc
      simp only [Except.map] at hc
      cases hc
      exact dedupKeepFirst_toFinset _

/-- Claim C7, as stated, is false: `json.dump` writes dict keys as JSON
strings, so the lookup index of an integer-identified input re-parses to a
string-keyed table that is not identical to the original IdentityTable. -/
theorem claim_C7_cex :
    items [(⟨some (.int 10), none, none⟩ : RawEvent)] = .ok [.int 10]
    ∧ (parseLookup (lookupFile (items_list [.int 10])
        (sessions_list [(⟨some (.int 10), none, none⟩ : RawEvent)]))).1 =
        [(Ident.str "10", 0)]
    ∧ table (items_list [.int 10]) = [(Ident.int 10, 0)]
    ∧ ([(Ident.str "10", 0)] : List (Ident × Nat)) ≠ [(Ident.int 10, 0)] := by decide

theorem claim_C7_witness :
    (parseLookup (lookupFile (items_list [Ident.str "a", Ident.str "a"])
        (sessions_list [(⟨some (.str "a"), some (.str "a"), some (.str "s")⟩ : RawEvent)]))).1 =
      (table (items_list [Ident.str "a", Ident.str "a"])).map (fun q => (Ident.str q.1.toStr, q.2))
    ∧ (parseLookup (lookupFile (items_list [Ident.str "a", Ident.str "a"])
        (sessions_list [(⟨some (.str "a"), some (.str "a"), some (.str "s")⟩ : RawEvent)]))).2 =
      (table (sessions_list [(⟨some (.str "a"), some (.str "a"), some (.str "s")⟩ : RawEvent)])).map
        (fun q => (Ident.str q.1.toStr, q.2))
    ∧ ((∀ v ∈ items_list [Ident.str "a", Ident.str "a"], ∃ s0, v = Ident.str s0) →
        (parseLookup (lookupFile (items_list [Ident.str "a", Ident.str "a"])
          (sessions_list [(⟨some (.str "a"), some (.str "a"), some (.str "s")⟩ : RawEvent)]))).1 =
          table (items_list [Ident.str "a", Ident.str "a"]))
    ∧ ((∀ v ∈ sessions_list [(⟨some (.str "a"), some (.str "a"), some (.str "s")⟩ : RawEvent)], ∃ s0, v = Ident.str s0) →
        (parseLookup (lookupFile (items_list [Ident.str "a", Ident.str "a"])
          (sessions_list [(⟨some (.str "a"), some (.str "a"), some (.str "s")⟩ : RawEvent)]))).2 =
          table (sessions_list [(⟨some (.str "a"), some (.str "a"), some (.str "s")⟩ : RawEvent)]))
    ∧ parseNextRows (next_rows (List.foldl (applyContrib (id_map [Ident.str "a", Ident.str "a"])) emptyAgg
      [(Ident.str "a", Ident.str "a", some (Ident.str "s"))])) =
        (List.foldl (applyContrib (id_map [Ident.str "a", Ident.str "a"])) emptyAgg
      [(Ident.str "a", Ident.str "a", some (Ident.str "s"))]).keys.map
          (fun k => (k, (List.foldl (applyContrib (id_map [Ident.str "a", Ident.str "a"])) emptyAgg
      [(Ident.str "a", Ident.str "a", some (Ident.str "s"))]).weight k,
            ((List.foldl (applyContrib (id_map [Ident.str "a", Ident.str "a"])) emptyAgg
      [(Ident.str "a", Ident.str "a", some (Ident.str "s"))]).sessions k).toFinset))
    ∧ ([((0 : Nat), (0 : Nat))]).toFinset = ({((0 : Nat), (0 : Nat))} : Finset (Nat × Nat)) :=
  claim_C7 [(⟨some (.str "a"), some (.str "a"), some (.str "s")⟩ : RawEvent)]
    [Ident.str "a", Ident.str "a"]
    (List.foldl (applyContrib (id_map [Ident.str "a", Ident.str "a"])) emptyAgg
      [(Ident.str "a", Ident.str "a", some (Ident.str "s"))])
    [(0, 0)] {(0, 0)} (by decide) rfl (by decide) (by decide)
    (by
      intro r hr sid hs
      simp only [List.mem_singleton] at hr
      subst hr
      cases hs
      decide)
    (by
      intro r hr v hv
      simp only [List.mem_singleton] at hr
      subst hr
      cases hv
      decide)
